import Mathlib

/-!
Verification of the clang-highlight token pipeline.

Python `bytes` values are modelled as `List Nat` (one `Nat` per byte), and
Python slicing `b[a:b]` as `sliceB` below, which shares Python's forgiving
out-of-range behaviour.  Data classes from `src/clang_highlight/data.py`
are modelled one-to-one (`Link`, `TokenType`, `Token`, and the iteration of
`HighlightedCode`).
-/

def sliceB (code : List Nat) (a b : Nat) : List Nat := (code.take b).drop a

/-! ## Data model (`src/clang_highlight/data.py`) -/

/-- `Link` from `data.py`: a cross-reference from a token to a declaration.
`file` is a `Path` in Python, modelled as its string form. -/
structure Link where
  file : String
  line : Int
  column : Int
  name : String
  qualified_name : String
  parameter_types : Option (List String)
  cppref : Option String
  deriving DecidableEq, Repr

/-- `TokenType` from `data.py`. -/
inductive TokenType where
  | WHITESPACE
  | KEYWORD
  | NAME
  | STRING_LITERAL
  | STRING_LITERAL_ESCAPE
  | STRING_LITERAL_INTERPOLATION
  | NUMBER_LITERAL
  | OTHER_LITERAL
  | OPERATOR
  | PUNCTUATION
  | COMMENT
  | PREPROCESSOR
  | PREPROCESSOR_FILE
  | VARIABLE
  | OTHER
  deriving DecidableEq, Repr

/-- `Token` from `data.py`. -/
structure Token where
  offset : Nat
  length : Nat
  type : TokenType
  link : Option Link := none
  deriving DecidableEq, Repr

/-! ## `HighlightedCode.__iter__` (`data.py`, lines 61-92)

The iterator yields, for each token, the gap bytes since the previous
token's end (when non-empty, with token `none`) and then the token's own
bytes.  Nothing is yielded after the last token's end. -/

def iterFragments (code : List Nat) : Nat → List Token → List (List Nat × Option Token)
  | _, [] => []
  | offset, t :: ts =>
    (if offset < t.offset then [(sliceB code offset t.offset, (none : Option Token))] else []) ++
    (sliceB code t.offset (t.offset + t.length), some t) ::
      iterFragments code (t.offset + t.length) ts

/-- Concatenation, in order, of every text fragment yielded by iterating a
`HighlightedCode` whose source is `code` and whose token list is `toks`. -/
def iterConcat (code : List Nat) (toks : List Token) : List Nat :=
  ((iterFragments code 0 toks).map Prod.fst).flatten

/-- The well-formedness invariant on a token list relative to a running
offset: tokens sorted by offset, pairwise non-overlapping, in bounds. -/
def tokensOrderedB (code : List Nat) : Nat → List Token → Bool
  | _, [] => true
  | offset, t :: ts =>
    decide (offset ≤ t.offset) && decide (t.offset + t.length ≤ code.length) &&
      tokensOrderedB code (t.offset + t.length) ts

/-- End offset of the last token of the list (the running offset when the
list is empty). -/
def lastEnd : Nat → List Token → Nat
  | o, [] => o
  | _, t :: ts => lastEnd (t.offset + t.length) ts

/-! ## Post-classification refinement passes
(`src/clang_highlight/postprocessing.py`)

The three byte regexes of that file (`INCLUDE_REGEX`, `ESCAPE_REGEX`,
`STRING_INTERPOLATION_REGEX`) are hand-compiled here into deterministic
matchers that reproduce Python `re` semantics (leftmost match,
first-matching alternative, greedy repetition with backtracking, `.`
not matching a newline byte, `re.match` anchored at the start). -/

def isWsByte (b : Nat) : Bool := b = 32 || b = 9 || b = 10 || b = 11 || b = 12 || b = 13

def isOctByte (b : Nat) : Bool := 48 ≤ b && b ≤ 55

def isHexByte (b : Nat) : Bool := (48 ≤ b && b ≤ 57) || (97 ≤ b && b ≤ 102) || (65 ≤ b && b ≤ 70)

/-- The character class `['"?\\abfnrtv]` of `ESCAPE_REGEX`. -/
def isSimpleEscByte (b : Nat) : Bool :=
  b = 39 || b = 34 || b = 63 || b = 92 || b = 97 || b = 98 || b = 102 || b = 110 ||
    b = 114 || b = 116 || b = 118

/-- Length of the longest prefix whose bytes all satisfy `p` (the greedy
match of a `X*` / `X+` class repetition). -/
def countWhile (p : Nat → Bool) : List Nat → Nat
  | [] => 0
  | b :: rest => if p b then countWhile p rest + 1 else 0

/-- Greedy `D+` followed by a literal `}` (byte 125): the matched run
length, or `none` when the run is empty or not followed by `}`. -/
def bracedRun (p : Nat → Bool) (t : List Nat) : Option Nat :=
  let r := countWhile p t
  if 1 ≤ r then
    match t.drop r with
    | 125 :: _ => some r
    | _ => none
  else none

def escAltSimple : List Nat → Option Nat
  | c :: _ => if isSimpleEscByte c then some 1 else none
  | [] => none

def escAltOctal : List Nat → Option Nat
  | a :: b :: c :: _ => if isOctByte a && isOctByte b && isOctByte c then some 3 else none
  | _ => none

def escAltOctBraced : List Nat → Option Nat
  | 111 :: 123 :: t => (bracedRun isOctByte t).map (fun r => r + 3)
  | _ => none

def escAltHexRun : List Nat → Option Nat
  | 120 :: t =>
    let r := countWhile isHexByte t
    if 1 ≤ r then some (r + 1) else none
  | _ => none

def escAltHexBraced : List Nat → Option Nat
  | 120 :: 123 :: t => (bracedRun isHexByte t).map (fun r => r + 3)
  | _ => none

def escAltU4 : List Nat → Option Nat
  | 117 :: t => if 4 ≤ t.length && (t.take 4).all isHexByte then some 5 else none
  | _ => none

def escAltUBraced : List Nat → Option Nat
  | 117 :: 123 :: t => (bracedRun isHexByte t).map (fun r => r + 3)
  | _ => none

def escAltU8 : List Nat → Option Nat
  | 85 :: t => if 8 ≤ t.length && (t.take 8).all isHexByte then some 9 else none
  | _ => none

def escAltName : List Nat → Option Nat
  | 78 :: 123 :: t => (bracedRun (fun b => !(b == 125)) t).map (fun r => r + 3)
  | _ => none

/-- The group of `ESCAPE_REGEX` (everything after the leading backslash),
with the alternatives tried in the regex's order. -/
def escGroup (s : List Nat) : Option Nat :=
  escAltSimple s <|> escAltOctal s <|> escAltOctBraced s <|> escAltHexRun s <|>
    escAltHexBraced s <|> escAltU4 s <|> escAltUBraced s <|> escAltU8 s <|> escAltName s

/-- `ESCAPE_REGEX` matched at the start of `s`: a backslash (92) followed
by one alternative of the group; returns the total match length. -/
def escMatch : List Nat → Option Nat
  | 92 :: t => (escGroup t).map (fun g => g + 1)
  | _ => none

/-- The byte class the lazy `.*?` of `STRING_INTERPOLATION_REGEX` may
consume before the closing `}`: anything but `}` (125) and newline (10). -/
def interpPred (b : Nat) : Bool := !(b == 125) && !(b == 10)

/-- `STRING_INTERPOLATION_REGEX = \{(?=[^{]).*?\}` matched at the start:
a `{` (123) whose next byte exists and is not another `{`, then the lazy
`.*?` runs to the first `}` (125) with no newline (10) crossed. -/
def interpMatch : List Nat → Option Nat
  | 123 :: c :: t =>
    if c = 123 then none
    else
      match (c :: t).drop (countWhile interpPred (c :: t)) with
      | 125 :: _ => some (countWhile interpPred (c :: t) + 2)
      | _ => none
  | _ => none

/-- `re.finditer` semantics for an anchored matcher `f`: scan positions
left to right, on a match of length `L` record `[pos, pos+L)` and resume
at `pos+L`, otherwise advance one byte.  The fuel argument is an upper
bound on the number of steps (every match here has positive length). -/
def scanAux (f : List Nat → Option Nat) : Nat → List Nat → Nat → List (Nat × Nat)
  | 0, _, _ => []
  | fuel + 1, text, pos =>
    if pos < text.length then
      match f (text.drop pos) with
      | some L => (pos, pos + L) :: scanAux f fuel text (pos + L)
      | none => scanAux f fuel text (pos + 1)
    else []

def finditer (f : List Nat → Option Nat) (text : List Nat) : List (Nat × Nat) :=
  scanAux f text.length text 0

/-- The shared loop body of `escape_codes` and `string_interpolation`:
from a match list over `text`, emit plain `STRING_LITERAL` fragments for
the in-between runs and `mTy` sub-tokens for the matches, then the
trailing fragment. -/
def buildTokens (off : Nat) (mTy : TokenType) (textLen : Nat) :
    Nat → List (Nat × Nat) → List Token
  | pos, [] =>
    if pos < textLen then [⟨off + pos, textLen - pos, TokenType.STRING_LITERAL, none⟩] else []
  | pos, (b, e) :: rest =>
    (if pos < b then [⟨off + pos, b - pos, TokenType.STRING_LITERAL, none⟩] else []) ++
    ⟨off + b, e - b, mTy, none⟩ :: buildTokens off mTy textLen e rest

/-- Per-token body of `escape_codes` (`postprocessing.py` lines 56-89);
the Python local `text = h.code[tok.offset : tok.offset + tok.length]` is
written out as the slice each time it is used. -/
def escape_codes_tok (code : List Nat) (tok : Token) : List Token :=
  if tok.type ≠ TokenType.STRING_LITERAL then [tok]
  else if !((sliceB code tok.offset (tok.offset + tok.length)).contains 34) then [tok]
  else if ((sliceB code tok.offset (tok.offset + tok.length)).takeWhile
      (fun b => !(b == 34))).contains 82 then [tok]
  else buildTokens tok.offset TokenType.STRING_LITERAL_ESCAPE
    (sliceB code tok.offset (tok.offset + tok.length)).length 0
    (finditer escMatch (sliceB code tok.offset (tok.offset + tok.length)))

/-- `escape_codes` (`postprocessing.py` lines 53-91). -/
def escape_codes (code : List Nat) (tokens : List Token) : List Token :=
  tokens.flatMap (escape_codes_tok code)

/-- Per-token body of `string_interpolation` (lines 97-124); note there is
no raw-string check here, unlike `escape_codes`. -/
def string_interpolation_tok (code : List Nat) (tok : Token) : List Token :=
  if tok.type ≠ TokenType.STRING_LITERAL then [tok]
  else if !((sliceB code tok.offset (tok.offset + tok.length)).contains 34) then [tok]
  else buildTokens tok.offset TokenType.STRING_LITERAL_INTERPOLATION
    (sliceB code tok.offset (tok.offset + tok.length)).length 0
    (finditer interpMatch (sliceB code tok.offset (tok.offset + tok.length)))

/-- `string_interpolation` (`postprocessing.py` lines 94-126). -/
def string_interpolation (code : List Nat) (tokens : List Token) : List Token :=
  tokens.flatMap (string_interpolation_tok code)

/-- Index of the last byte satisfying `p`, if any. -/
def findLastIdx (p : Nat → Bool) : List Nat → Option Nat
  | [] => none
  | b :: rest =>
    match findLastIdx p rest with
    | some k => some (k + 1)
    | none => if p b then some 0 else none

/-- The backtracking tail `.*[">]` of `INCLUDE_REGEX`, starting right
after the opening `<`/`"` byte: greedy `.` (anything but newline) then the
class, which resolves to the last `"` (34) or `>` (62) byte in the longest
newline-free run. -/
def lastCloser (rest : List Nat) : Option Nat :=
  findLastIdx (fun b => b == 34 || b == 62) (rest.takeWhile (fun b => !(b == 10)))

/-- `INCLUDE_REGEX = (?P<stmt>#\s*include)\s*(?P<file>[<"].*[">])` matched
at the start of `s` (`re.match`); returns
`(stmt end, file begin, file end)` — the `stmt` group always begins at 0.
Whitespace repetitions are effectively maximal-only because neither
`include`'s first letter nor the `[<"]` class intersects `\s`. -/
def includeMatch : List Nat → Option (Nat × Nat × Nat)
  | [] => none
  | c0 :: t =>
    if c0 = 35 then
      if ((c0 :: t).drop (1 + countWhile isWsByte t)).take 7
          = [105, 110, 99, 108, 117, 100, 101] then
        let stmtEnd := 1 + countWhile isWsByte t + 7
        let fb := stmtEnd + countWhile isWsByte ((c0 :: t).drop stmtEnd)
        match (c0 :: t).drop fb with
        | c :: rest =>
          if c = 60 || c = 34 then
            match lastCloser rest with
            | some k => some (stmtEnd, fb, fb + 1 + k + 1)
            | none => none
          else none
        | [] => none
      else none
    else none

/-- Per-token body of `generate_include_file_tokens` (lines 19-48);
`none` models the `RuntimeError` raised on a failed match. -/
def generate_include_file_tokens_tok (code : List Nat) (tok : Token) : Option (List Token) :=
  if tok.type = TokenType.PREPROCESSOR then
    match includeMatch (sliceB code tok.offset (tok.offset + tok.length)) with
    | none => none
    | some (stmtEnd, fb, fe) =>
      some [⟨tok.offset, stmtEnd, TokenType.PREPROCESSOR, none⟩,
            ⟨tok.offset + fb, fe - fb, TokenType.PREPROCESSOR_FILE, tok.link⟩]
  else some [tok]

/-- `generate_include_file_tokens` (`postprocessing.py` lines 17-50);
`none` models the pass aborting with `RuntimeError`. -/
def generate_include_file_tokens (code : List Nat) : List Token → Option (List Token)
  | [] => some []
  | t :: ts =>
    match generate_include_file_tokens_tok code t with
    | none => none
    | some hd =>
      match generate_include_file_tokens code ts with
      | none => none
      | some tl => some (hd ++ tl)

/-- Append stability: a matcher that succeeds on `x` succeeds on `x ++ y`.
This is what makes the regexes of `postprocessing.py` re-scannable on the
sub-token fragments they produce. -/
def AppendStable (f : List Nat → Option Nat) : Prop :=
  ∀ x y L, f x = some L → (f (x ++ y)).isSome = true

/-- No match of `f` starts at any position in `[a, b)` of `text`. -/
def NoMatch (f : List Nat → Option Nat) (text : List Nat) (a b : Nat) : Prop :=
  ∀ q, a ≤ q → q < b → f (text.drop q) = none

/-- What `finditer` guarantees about its match list: matches are in order,
disjoint, in bounds, each really matches at its start position, and no
match of `f` starts anywhere in the gaps. -/
def ScanSpec (f : List Nat → Option Nat) (text : List Nat) : Nat → List (Nat × Nat) → Prop
  | pos, [] => NoMatch f text pos text.length
  | pos, (b, e) :: rest =>
    pos ≤ b ∧ NoMatch f text pos b ∧ f (text.drop b) = some (e - b) ∧ b < e ∧
      e ≤ text.length ∧ ScanSpec f text e rest

/-- A token list tiles `[a, b)`: each token starts exactly where the
previous one ended, the first at `a`, the last ending at `b` — no gaps, no
overlaps. -/
def covers : Nat → List Token → Nat → Prop
  | a, [], b => a = b
  | a, t :: ts, b => t.offset = a ∧ covers (a + t.length) ts b

/-- The full string-literal decomposition: the escape pass followed by the
interpolation pass, in the order they appear in `postprocessing.ALL`. -/
def string_decomposition (code : List Nat) (toks : List Token) : List Token :=
  string_interpolation code (escape_codes code toks)

/-! ## Token merger (`src/clang_highlight.py`, class `Processor`)

The libclang cursor tree is modelled by `Cursor` (kind, byte extent, a
flag for "extent starts in the processed file", its lexical tokens and its
children), lexical tokens by their byte extents, and the `SortedDict`
token map by an association list keyed by start offset (the claims touch
only point lookups and updates, not iteration order). -/

inductive CursorKind where
  | MACRO_INSTANTIATION
  | INCLUSION_DIRECTIVE
  | TRANSLATION_UNIT
  | OTHER
  deriving DecidableEq, Repr

structure LexToken where
  startOff : Nat
  endOff : Nat
  deriving DecidableEq, Repr

/-- The `Link` data class of `clang_highlight.py` (file, line, character,
qualified name); `Path` is modelled by its string form. -/
structure CLink where
  file : String
  line : Int
  character : Nat
  qualified_name : String
  deriving DecidableEq, Repr

/-- The merged `Token` of `clang_highlight.py`: a lexical token, the
cursor it was attributed to (only the kind matters to the claims), and
the link later attached by `add_clang_ast`. -/
structure MergedToken where
  tok : LexToken
  ckind : CursorKind
  link : Option CLink := none
  deriving DecidableEq, Repr

def TokenMap : Type := List (Nat × MergedToken)

def lookupTM : TokenMap → Nat → Option MergedToken
  | [], _ => none
  | (k, v) :: rest, key => if k = key then some v else lookupTM rest key

def setTM : TokenMap → Nat → MergedToken → TokenMap
  | [], key, v => [(key, v)]
  | (k, w) :: rest, key, v => if k = key then (k, v) :: rest else (k, w) :: setTM rest key v

/-- `Processor.token` (`clang_highlight.py` lines 85-93): insert a merged
token at its start offset, except that an entry whose cursor is a macro
instantiation is never overwritten. -/
def processorToken (m : TokenMap) (ck : CursorKind) (t : LexToken) : TokenMap :=
  match lookupTM m t.startOff with
  | some old =>
    if old.ckind = CursorKind.MACRO_INSTANTIATION then m
    else setTM m t.startOff ⟨t, ck, none⟩
  | none => setTM m t.startOff ⟨t, ck, none⟩

structure Cursor where
  kind : CursorKind
  startOff : Nat
  endOff : Nat
  inFile : Bool
  toks : List LexToken
  children : List Cursor

/-- The inner `while offset < child_start and tokenIdx < len(tokens)` loop
of `Processor.visit`: emit tokens before `limit`, skipping tokens that
start before the running offset; returns the remaining tokens, the final
offset and the updated map. -/
def emitUntil (ck : CursorKind) (limit : Nat) :
    List LexToken → Nat → TokenMap → (List LexToken × Nat × TokenMap)
  | [], off, m => ([], off, m)
  | t :: rest, off, m =>
    if off < limit then
      if t.startOff < off then emitUntil ck limit rest off m
      else emitUntil ck limit rest t.endOff (processorToken m ck t)
    else (t :: rest, off, m)

/-- The trailing `for token in tokens[tokenIdx:]` loop of
`Processor.visit`. -/
def trailEmit (ck : CursorKind) : List LexToken → Nat → TokenMap → TokenMap
  | [], _, m => m
  | t :: rest, off, m =>
    if t.startOff < off then trailEmit ck rest off m
    else trailEmit ck rest t.endOff (processorToken m ck t)

mutual

/-- `Processor.visit` (`clang_highlight.py` lines 95-135): skip cursors
outside the file; a macro-instantiation cursor keeps only its first
lexical token; walk the children, attributing the in-between tokens to the
current cursor, then emit the leftover tokens. -/
def processorVisit : Cursor → TokenMap → TokenMap
  | ⟨kind, startOff, _, inFile, toks, children⟩, m =>
    if ¬ inFile then m
    else
      trailEmit kind
        (processorVisitChildren kind children startOff
          (if kind = CursorKind.MACRO_INSTANTIATION then toks.take 1 else toks) m).1
        (processorVisitChildren kind children startOff
          (if kind = CursorKind.MACRO_INSTANTIATION then toks.take 1 else toks) m).2.1
        (processorVisitChildren kind children startOff
          (if kind = CursorKind.MACRO_INSTANTIATION then toks.take 1 else toks) m).2.2

/-- The `for child in cursor.get_children()` loop of `Processor.visit`:
before each child, emit the current cursor's tokens up to the child's
start, recurse into the child, and resume at the child's end offset. -/
def processorVisitChildren (ck : CursorKind) : List Cursor → Nat → List LexToken →
    TokenMap → (List LexToken × Nat × TokenMap)
  | [], off, toks, m => (toks, off, m)
  | ch :: rest, off, toks, m =>
    processorVisitChildren ck rest ch.endOff
      (emitUntil ck ch.startOff toks off m).1
      (processorVisit ch (emitUntil ck ch.startOff toks off m).2.2)

end

/-! ## Member-reference resolver (`src/clang_highlight.py`,
`Processor.add_clang_ast`, lines 214-295)

The serialized clang AST export is modelled by the nested inductive
`JNode`; sparse location records by `Option` fields.  The traversal state
(`State` in the Python code) threads through the whole walk — Python
mutates one shared object — and path absolutization
(`Path(...).absolute()`) is modelled as plain string equality with the
main file's name. -/

/-- A sparse location record (the `loc` / `range.begin` objects of the
export): optional `file` and `line` keys plus the `col` field. -/
structure JLoc where
  file : Option String := none
  line : Option Int := none
  col : Nat := 0
  deriving DecidableEq, Repr

/-- The traversal `State` data class: current file, current line, and
whether the current file is the main file. -/
structure TState where
  file : Option String := none
  line : Int := -1
  isMainFile : Bool := false
  deriving DecidableEq, Repr

/-- A node of the `-ast-dump=json` export.  `rng` is the `range` object as
`(begin location, end offset)`.  Fields the Python code reads with a plain
subscript (`name`, `range` of a referenced declaration) are modelled
totally, with defaults standing in for records the export always
populates. -/
inductive JNode where
  | mk : (kind : String) → (loc : Option JLoc) → (rng : Option (JLoc × Nat)) →
      (nid : Option Nat) → (mangledName : Option String) →
      (referencedMemberDecl : Option Nat) → (name : String) →
      (inner : List JNode) → JNode

def JNode.kind : JNode → String
  | ⟨k, _, _, _, _, _, _, _⟩ => k

def JNode.loc : JNode → Option JLoc
  | ⟨_, l, _, _, _, _, _, _⟩ => l

def JNode.rng : JNode → Option (JLoc × Nat)
  | ⟨_, _, r, _, _, _, _, _⟩ => r

def JNode.nid : JNode → Option Nat
  | ⟨_, _, _, i, _, _, _, _⟩ => i

def JNode.mangledName : JNode → Option String
  | ⟨_, _, _, _, mn, _, _, _⟩ => mn

def JNode.referencedMemberDecl : JNode → Option Nat
  | ⟨_, _, _, _, _, r, _, _⟩ => r

def JNode.name : JNode → String
  | ⟨_, _, _, _, _, _, n, _⟩ => n

def JNode.inner : JNode → List JNode
  | ⟨_, _, _, _, _, _, _, i⟩ => i

def IdMap : Type := List (Nat × JNode × TState)

def lookupIM : IdMap → Nat → Option (JNode × TState)
  | [], _ => none
  | (k, v) :: rest, key => if k = key then some v else lookupIM rest key

def setIM : IdMap → Nat → (JNode × TState) → IdMap
  | [], key, v => [(key, v)]
  | (k, w) :: rest, key, v => if k = key then (k, v) :: rest else (k, w) :: setIM rest key v

/-- `handleLoc` (lines 232-240): a `file` key updates the current file and
recomputes `is_main_file`; a `line` key updates the current line. -/
def handleLoc (mainFile : String) (l : JLoc) (st : TState) : TState :=
  let st1 :=
    match l.file with
    | some f => { st with file := some f, isMainFile := decide (f = mainFile) }
    | none => st
  match l.line with
  | some n => { st1 with line := n }
  | none => st1

/-- The `Link` built by a successful member resolution (line 260-263):
captured file and line from the referenced declaration's recorded state,
column and display name from the referenced declaration node itself. -/
def memberLink (ref : JNode) (refSt : TState) : CLink :=
  ⟨refSt.file.getD "", refSt.line, ((ref.rng.map (fun r => r.1.col)).getD 0), ref.name⟩

/-- `visit` (lines 242-263): only `MemberExpr` nodes are acted on; an
unknown referenced-member identity or an end offset absent from the token
map is skipped silently; otherwise the token at the end offset gets its
link set. -/
def mrVisit (idMap : IdMap) (tm : TokenMap) (n : JNode) : TokenMap :=
  if n.kind = "MemberExpr" then
    match n.rng with
    | none => tm
    | some (_, endOff) =>
      match n.referencedMemberDecl with
      | none => tm
      | some member =>
        match lookupIM idMap member with
        | none => tm
        | some (ref, refSt) =>
          match lookupTM tm endOff with
          | none => tm
          | some mt => setTM tm endOff { mt with link := some (memberLink ref refSt) }
  else tm

mutual

/-- `traverse` (lines 279-292): update the state from `loc` and
`range.begin`, attempt resolution only when the state says the main file,
register nodes that carry both an `id` and a `mangledName` in the identity
map (with a copy of the current state), and recurse. -/
def mrTraverse (mainFile : String) : JNode → TState → IdMap → TokenMap →
    TState × IdMap × TokenMap
  | ⟨kind, loc, rng, nid, mangledName, refMember, name, inner⟩, st, im, tm =>
    let st1 := match loc with
      | some l => handleLoc mainFile l st
      | none => st
    let st2 := match rng with
      | some r => handleLoc mainFile r.1 st1
      | none => st1
    let tm1 := if st2.isMainFile then
        mrVisit im tm ⟨kind, loc, rng, nid, mangledName, refMember, name, inner⟩
      else tm
    let im1 := match nid, mangledName with
      | some i, some _ =>
        setIM im i (⟨kind, loc, rng, nid, mangledName, refMember, name, inner⟩, st2)
      | _, _ => im
    mrTraverseList mainFile inner st2 im1 tm1

def mrTraverseList (mainFile : String) : List JNode → TState → IdMap → TokenMap →
    TState × IdMap × TokenMap
  | [], st, im, tm => (st, im, tm)
  | n :: rest, st, im, tm =>
    mrTraverseList mainFile rest (mrTraverse mainFile n st im tm).1
      (mrTraverse mainFile n st im tm).2.1 (mrTraverse mainFile n st im tm).2.2

end

mutual

/-- All `file` strings that occur in `loc` or `range.begin` records of a
subtree. -/
def nodeFiles : JNode → List String
  | ⟨_, loc, rng, _, _, _, _, inner⟩ =>
    (match loc with | some l => l.file.toList | none => []) ++
    (match rng with | some r => r.1.file.toList | none => []) ++
    nodeFilesList inner

def nodeFilesList : List JNode → List String
  | [] => []
  | n :: rest => nodeFiles n ++ nodeFilesList rest

end

/-! ## Overload matcher (`src/src/clang_highlight/map_stl.py`,
`overload_match` lines 687-694 and `resolve_stl` lines 697-729)

The loaded knowledge base (`stl_map` in the code) is modelled by three
association lists mirroring the persisted JSON object; an entry of an
`overloads` bucket is the serialized `{"page": …, "overload": asdict(link)}`
record produced by the builder. -/

def lookupA {α : Type} : List (String × α) → String → Option α
  | [], _ => none
  | (k, v) :: rest, key => if k = key then some v else lookupA rest key

structure OverloadRec where
  page : String
  overload : Link
  deriving DecidableEq, Repr

structure StlMap where
  symbols : List (String × String)
  overloads : List (String × List OverloadRec)
  headers : List (String × String)
  deriving Repr

/-- `overload_match`: an overload entry matches a link exactly when both
the qualified name and the parameter-type list are equal (element-wise,
in order — list equality). -/
def overload_match (overload : Link) (link : Link) : Bool :=
  if overload.qualified_name ≠ link.qualified_name then false
  else if overload.parameter_types ≠ link.parameter_types then false
  else true

/-- The per-link body of `resolve_stl`: symbols lookup first, then — only
when that missed and the link carries parameter types — the first matching
entry of the overloads bucket, and for an inclusion link (`name` equal to
the `"<file>"` marker) the headers lookup overrides both; `cppref` is set
only when a page was found. -/
def resolveLink (stl_map : StlMap) (link : Link) : Link :=
  let page0 := lookupA stl_map.symbols link.qualified_name
  let page1 :=
    match page0, link.parameter_types with
    | none, some _ =>
      match lookupA stl_map.overloads link.qualified_name with
      | some ovs =>
        match ovs.filter (fun o => overload_match o.overload link) with
        | mfirst :: _ => some mfirst.page
        | [] => none
      | none => none
    | _, _ => page0
  let page2 := if link.name = "<file>" then lookupA stl_map.headers link.file else page1
  match page2 with
  | some p => { link with cppref := some p }
  | none => link

/-- `resolve_stl`: resolve every token that carries a link; linkless
tokens are skipped. -/
def resolve_stl (stl_map : StlMap) (tokens : List Token) : List Token :=
  tokens.map fun tok =>
    match tok.link with
    | none => tok
    | some l => { tok with link := some (resolveLink stl_map l) }

/-! ## Knowledge-base builder (`src/src/clang_highlight/map_stl.py`)

Python `str` values are modelled as `List Char`.  `lxml`/`ET` artifacts
are abstracted into plain data (`Corpus`, `ClassElem`, `DeclRow`): a class
page provides the header and the raw class-declaration cell, an overload
page provides its declaration-table rows.  Python `assert` statements and
uncaught exceptions are modelled as `Except.error`; caught/guarded
failures keep their skip behaviour. -/

def isSpaceC (c : Char) : Bool :=
  c = ' ' || c = Char.ofNat 9 || c = Char.ofNat 10 || c = Char.ofNat 13 ||
    c = Char.ofNat 11 || c = Char.ofNat 12

def isWordC (c : Char) : Bool := c.isAlphanum || c = '_'

def countWhileC (p : Char → Bool) : List Char → Nat
  | [] => 0
  | c :: rest => if p c then countWhileC p rest + 1 else 0

def isPrefixC : List Char → List Char → Bool
  | [], _ => true
  | _ :: _, [] => false
  | a :: as, b :: bs => a == b && isPrefixC as bs

/-- Python `needle in hay` on strings. -/
def isSub (needle : List Char) : List Char → Bool
  | [] => needle.isEmpty
  | c :: rest => isPrefixC needle (c :: rest) || isSub needle rest

/-- Python `s.split(sep)` for a one-character separator (empty pieces
included). -/
def splitOnC (sep : Char) : List Char → List (List Char)
  | [] => [[]]
  | c :: rest =>
    if c = sep then [] :: splitOnC sep rest
    else
      match splitOnC sep rest with
      | p :: ps => (c :: p) :: ps
      | [] => [[c]]

/-- `whitespace_regex.sub(" ", s)`: every maximal whitespace run becomes a
single space. -/
def normWsAux (prevSpace : Bool) : List Char → List Char
  | [] => []
  | c :: rest =>
    if isSpaceC c then
      if prevSpace then normWsAux true rest else ' ' :: normWsAux true rest
    else c :: normWsAux false rest

def normWs (s : List Char) : List Char := normWsAux false s

/-- Python `s.strip()`. -/
def stripC (s : List Char) : List Char :=
  ((s.dropWhile isSpaceC).reverse.dropWhile isSpaceC).reverse

/-- Python `s.partition(sep)` restricted to the pieces the code uses:
text before and after the first occurrence (whole string and empty when
absent). -/
def partitionC (sep : Char) : List Char → (List Char × List Char)
  | [] => ([], [])
  | c :: rest =>
    if c = sep then ([], rest)
    else
      ((c :: (partitionC sep rest).1), (partitionC sep rest).2)

/-- Python `s.rpartition(sep)[2]`: the suffix after the last occurrence
of `sep`, the whole string when absent. -/
def afterLast (sep : Char) (s : List Char) : List Char :=
  (s.reverse.takeWhile (fun c => !(c == sep))).reverse

/-- `signature_split_rest` (lines 41-64): scan for the parenthesis
closing the parameter list by nesting level; the index of the closing
parenthesis, or `none` when the loop ends without finding it (in Python
the trailing `assert level == 0` then fails). -/
def ssrAux : List Char → Nat → Nat → Option Nat
  | [], _, _ => none
  | c :: rest, idx, level =>
    if c = '(' then ssrAux rest (idx + 1) (level + 1)
    else if c = ')' then
      (if level = 1 then some idx else ssrAux rest (idx + 1) (level - 1))
    else ssrAux rest (idx + 1) level

def signature_split_rest (rest : List Char) : Except String (List Char × List Char) :=
  match ssrAux rest 0 1 with
  | some idx => .ok (rest.take idx, rest.drop (idx + 1))
  | none => .error "assert level == 0"

/-- The loop of `lex_params` (lines 67-101): split a template parameter
list on top-level commas up to the closing `>`; Python's trailing
`assert level == 1` and the `NameError` on a never-assigned `end_idx`
are both errors. -/
def lexParamsAux : List Char → Nat → Nat → List Char → List (List Char) →
    Except String (List (List Char) × Nat)
  | [], _, level, _, _ =>
    if level = 1 then .error "NameError: end_idx" else .error "assert level == 1"
  | c :: rest, idx, level, cur, acc =>
    if level = 1 then
      if c = '>' then
        .ok ((if cur.isEmpty then acc else acc ++ [cur]), idx + 1)
      else if c = ',' then
        lexParamsAux rest (idx + 1) level []
          (if cur.isEmpty then acc else acc ++ [cur])
      else
        lexParamsAux rest (idx + 1)
          (if c = '<' then level + 1 else level) (cur ++ [c]) acc
    else
      lexParamsAux rest (idx + 1)
        (if c = '<' then level + 1 else if c = '>' then level - 1 else level)
        (cur ++ [c]) acc

def lex_params (params : List Char) : Except String (List (List Char) × List Char) :=
  (lexParamsAux params 0 1 [] []).map
    (fun r => (r.1.map stripC, params.drop r.2))

/-- `get_template_params` (lines 104-117): `template\s*<` anchored at the
start, then `lex_params` on the remainder; `none` when the declaration is
not a template. -/
def get_template_params (decl : List Char) : Except String (Option (List (List Char))) :=
  if decl.take 8 = "template".toList then
    match (decl.drop 8).dropWhile isSpaceC with
    | '<' :: tail => (lex_params tail).map (fun r => some r.1)
    | _ => .ok none
  else .ok none

/-- `template_type_arg_regex` matched at the start of a parameter
(`(class|typename|std::\w+<\w+>)\s*(\.\.\.)?\s*(?P<name>.*)`), returning
the `name` group. -/
def ttaMatch (p : List Char) : Option (List Char) :=
  let afterKw : Option (List Char) :=
    if p.take 5 = "class".toList then some (p.drop 5)
    else if p.take 8 = "typename".toList then some (p.drop 8)
    else if p.take 5 = "std::".toList then
      match (p.drop 5).takeWhile isWordC with
      | [] => none
      | w1 =>
        match (p.drop (5 + w1.length)) with
        | '<' :: rest2 =>
          match rest2.takeWhile isWordC with
          | [] => none
          | w2 =>
            match rest2.drop w2.length with
            | '>' :: rest3 => some rest3
            | _ => none
        | _ => none
    else none
  afterKw.map (fun rest =>
    let r1 := rest.dropWhile isSpaceC
    let r2 := if r1.take 3 = "...".toList then r1.drop 3 else r1
    r2.dropWhile isSpaceC)

/-- The heuristic name-keyed table of `generate_template_args` (lines
171-227), in the order of the Python `elif` chain; `"int"` is the
default. -/
def gtaChoose (name : List Char) (exclude : List (List Char)) (decl : List Char) : List Char :=
  if name = "InputIt".toList then "iterator".toList
  else if name = "P".toList then "value_type".toList
  else if name = "C2".toList then "key_compare".toList
  else if name = "CharT".toList then "char".toList
  else if name = "Ostream".toList then "std::basic_ostream<char>".toList
  else if name = "Istream".toList then "std::basic_istream<char>".toList
  else if name = "Alloc".toList then
    (if exclude.contains "Allocator".toList then "Allocator".toList else "int".toList)
  else if name = "Pred".toList then "MyPred".toList
  else if name = "U".toList then "char".toList
  else if name = "T2".toList || name = "U2".toList then "char".toList
  else if name = "Traits".toList then "std::char_traits<char>".toList
  else if name = "Clock".toList then "std::chrono::high_resolution_clock".toList
  else if name = "ToDuration".toList then "std::chrono::seconds".toList
  else if name = "Duration".toList then "std::chrono::seconds".toList
  else if name = "C".toList then "std::chrono::high_resolution_clock".toList
  else if isSub "Period".toList name then "std::ratio<1>".toList
  else if name = "P1".toList then "std::ratio<1>".toList
  else if name = "D1".toList || name = "D2".toList then
    (if exclude.contains "Deleter".toList then "Deleter".toList
     else "std::chrono::seconds".toList)
  else if name = "P2".toList then "std::ratio<1>".toList
  else if name = "UIntType".toList then "unsigned int".toList
  else if name = "T".toList && isSub "std::complex".toList decl then "double".toList
  else if name = "NonComplex".toList then "double".toList
  else if name = "T".toList && isSub "Istream".toList decl &&
      isSub "T&& value".toList decl then "int&".toList
  else "int".toList

def mkUsing (name ty : List Char) : List Char :=
  "using ".toList ++ name ++ " = ".toList ++ ty ++ ";".toList

/-- The parameter loop of `generate_template_args` (lines 160-238): per
parameter, split off a default value, try the type-parameter pattern,
choose an argument from the table for non-defaulted type parameters, and
record a typedef and the parameter name when not excluded; non-type
parameters contribute `"0"` (or `"1"` for `basic_istream`). -/
def gtaLoop (exclude : List (List Char)) (decl : List Char) :
    List (List Char) → (List (List Char) × List (List Char) × List (List Char))
  | [] => ([], [], [])
  | p :: rest =>
    let isDef := p.contains '='
    let pCore := if isDef then stripC (partitionC '=' p).1 else p
    let defTy := if isDef then stripC (partitionC '=' p).2 else []
    let r := gtaLoop exclude decl rest
    match ttaMatch pCore with
    | some nm =>
      let ty := if isDef then defTy else gtaChoose nm exclude decl
      let argContrib := if isDef then [] else [gtaChoose nm exclude decl]
      if exclude.contains nm then
        (argContrib ++ r.1, r.2.1, r.2.2)
      else
        (argContrib ++ r.1, mkUsing nm ty :: r.2.1, nm :: r.2.2)
    | none =>
      ((if isSub "basic_istream".toList decl then ["1".toList] else ["0".toList]) ++ r.1,
        r.2.1, r.2.2)

def joinC (sep : List Char) : List (List Char) → List Char
  | [] => []
  | [x] => x
  | x :: y :: rest => x ++ sep ++ joinC sep (y :: rest)

/-- `generate_template_args` (lines 146-239): argument string, typedef
lines, and the set of bound parameter names. -/
def generate_template_args (params : List (List Char)) (exclude : List (List Char))
    (decl : List Char) : List Char × List (List Char) × List (List Char) :=
  let r := gtaLoop exclude decl params
  ("<".toList ++ joinC ",".toList r.1 ++ ">".toList, r.2.1, r.2.2)

/-- `forward_template_params` (lines 120-143). -/
def forward_template_params (params : List (List Char)) : List Char :=
  "<".toList ++
    joinC ", ".toList (params.map (fun p =>
      let p1 := if p.contains '=' then stripC (partitionC '=' p).1 else p
      let name := afterLast ' ' p1
      if isSub "...".toList p1 then name ++ "...".toList else name)) ++
    ">".toList

/-- An `<overload>` child of a `<class>` index entry: its `name`
attribute and optional `link` attribute. -/
structure OverloadElem where
  name : List Char
  link : Option (List Char)
  deriving DecidableEq, Repr

/-- A row of an overload page's declaration table: the first `td` cell's
text (`none` models a row without one, on which Python's
`assert cell is not None` fails) and the `t-since-cxx`/`t-until-cxx`
versions read off the row's CSS classes. -/
structure DeclRow where
  cell : Option (List Char)
  sinceCxx : Nat
  untilCxx : Nat
  deriving DecidableEq, Repr

/-- The pieces `handle_class` reads from a class page: the header `code`
element's text and the first `t-dcl` cell's raw text. -/
structure ClassPageData where
  header : Option (List Char)
  classDecl : Option (List Char)
  deriving DecidableEq, Repr

/-- A `<class>` entry of `index-functions-cpp.xml`. -/
structure ClassElem where
  name : List Char
  link : List Char
  overloads : List OverloadElem
  deriving DecidableEq, Repr

/-- The documentation corpus: `classPage link` is the parsed
`{link}.html` (`none` models `FileNotFoundError` or a missing element),
`overloadPage page` the declaration rows of `{page}.html`. -/
structure Corpus where
  classPage : List Char → Option ClassPageData
  overloadPage : List Char → Option (List DeclRow)

/-- The observable outcome of a successful probe generation: the probe
path (identified by the class link) and the number of emitted calls. -/
structure ProbeOut where
  outPath : List Char
  numCalls : Nat
  deriving DecidableEq, Repr

/-- Python dict insertion: overwrite in place, append new keys. -/
def dictInsert (k : List Char) (v : List Char × List Char) :
    List (List Char × (List Char × List Char)) →
    List (List Char × (List Char × List Char))
  | [] => [(k, v)]
  | (k0, v0) :: rest =>
    if k0 = k then (k0, v) :: rest else (k0, v0) :: dictInsert k v rest

/-- Page link of one `<overload>` entry (lines 284-291): the `link`
attribute defaulting to `name`; `"."` means the class page itself,
anything else is appended to the class link. -/
def resolveOverloadLink (cls : ClassElem) (o : OverloadElem) : List Char :=
  let l0 := o.link.getD o.name
  if l0 = ".".toList then cls.link else cls.link ++ "/".toList ++ l0

/-- First-occurrence deduplication (dict `setdefault` key order). -/
def dedupAux (seen : List (List Char)) : List (List Char) → List (List Char)
  | [] => []
  | k :: rest =>
    if seen.contains k then dedupAux seen rest else k :: dedupAux (k :: seen) rest

def dedupKeys (l : List (List Char)) : List (List Char) := dedupAux [] l

/-- Python string order (code-point lexicographic), for
`sorted(pages.items())`. -/
def lexLt : List Char → List Char → Bool
  | [], [] => false
  | [], _ :: _ => true
  | _ :: _, [] => false
  | a :: as, b :: bs =>
    if a.val < b.val then true else if b.val < a.val then false else lexLt as bs

def insertSorted (x : List Char) : List (List Char) → List (List Char)
  | [] => [x]
  | y :: rest => if lexLt x y then x :: y :: rest else y :: insertSorted x rest

def sortKeys : List (List Char) → List (List Char)
  | [] => []
  | x :: rest => insertSorted x (sortKeys rest)

/-- One declaration cell (lines 322-335): split on `;`, normalize and
strip each piece, skip empty ones, and store
`(decl, (page, last line of the verbatim text))` into the dict. -/
def declsInto (page cellText : List Char)
    (acc : List (List Char × (List Char × List Char))) :
    List (List Char × (List Char × List Char)) :=
  (splitOnC ';' cellText).foldl
    (fun a vd =>
      let decl := stripC (normWs vd)
      if decl.isEmpty then a
      else dictInsert decl (page, stripC (afterLast (Char.ofNat 10) vd)) a)
    acc

/-- The row loop over one overload page (lines 306-335): a row without a
first cell fails the `assert`; rows outside the C++23 version window are
skipped. -/
def rowsInto (page : List Char) :
    List DeclRow → List (List Char × (List Char × List Char)) →
    Except String (List (List Char × (List Char × List Char)))
  | [], acc => .ok acc
  | row :: rest, acc =>
    match row.cell with
    | none => .error "assert cell is not None"
    | some cellText =>
      if 23 < row.sinceCxx || row.untilCxx ≤ 23 then rowsInto page rest acc
      else rowsInto page rest (declsInto page cellText acc)

/-- The page loop (lines 294-335): a missing overload page is a warning
and a `continue`. -/
def pagesInto (corpus : Corpus) :
    List (List Char) → List (List Char × (List Char × List Char)) →
    Except String (List (List Char × (List Char × List Char)))
  | [], acc => .ok acc
  | page :: rest, acc =>
    match corpus.overloadPage page with
    | none => pagesInto corpus rest acc
    | some rows =>
      match rowsInto page rows acc with
      | .error e => .error e
      | .ok acc2 => pagesInto corpus rest acc2

/-- Inner backtracking of `signature_regex`
(`(?P<A>[^(]*) (?P<name>[^ (]+)\s*\((?P<rest>.*)`): with the `A` group
fixed (ending at index `nstart - 1`), try name lengths from `j` down to
1; after the name, skip whitespace and require `(`. -/
def sigNameTry (s : List Char) (nstart : Nat) : Nat → Option (List Char × List Char)
  | 0 => none
  | j + 1 =>
    match ((s.drop (nstart + (j + 1))).dropWhile isSpaceC) with
    | '(' :: r => some ((s.drop nstart).take (j + 1), r)
    | _ => sigNameTry s nstart j

/-- One attempt with the `A` group of length `k`: `A` must be
parenthesis-free and followed by a literal space; the name then starts
at `k + 1` with maximal length the run of non-space non-paren
characters. -/
def sigTryAt (s : List Char) (k : Nat) : Option (List Char × List Char) :=
  if (s.take k).all (fun c => !(c == '(')) && ((s.drop k).head? == some ' ') then
    sigNameTry s (k + 1)
      (countWhileC (fun c => !(c == ' ') && !(c == '(')) (s.drop (k + 1)))
  else none

/-- Greedy `A`: longest length first. -/
def sigKTry (s : List Char) : Nat → Option (List Char × List Char)
  | 0 => sigTryAt s 0
  | k + 1 =>
    match sigTryAt s (k + 1) with
    | some r => some r
    | none => sigKTry s k

/-- `signature_regex.match(decl)`, returning the `name` and `rest`
groups. -/
def signature_match (s : List Char) : Option (List Char × List Char) :=
  sigKTry s s.length

/-- The declaration loop of `handle_class` (lines 392-467): `= delete`
and paren-free entries are skipped before counting; each counted entry
runs `get_template_params` and, when the signature pattern matches,
`signature_split_rest` — the only failure points; the generated probe
text itself is pure string building and is not tracked. -/
def processDecls (tplParamSet : List (List Char)) :
    List (List Char × (List Char × List Char)) → Except String Nat
  | [] => .ok 0
  | (decl, _pf) :: rest =>
    if isSub "= delete".toList decl then processDecls tplParamSet rest
    else if !(isSub "(".toList decl) then processDecls tplParamSet rest
    else
      match get_template_params decl with
      | .error e => .error e
      | .ok tps =>
        let _ := match tps with
          | some ps =>
            if ps.isEmpty then none
            else some (generate_template_args ps tplParamSet decl,
              forward_template_params ps)
          | none => none
        match signature_match decl with
        | some (_name, rest2) =>
          match signature_split_rest rest2 with
          | .error e => .error e
          | .ok _ => (processDecls tplParamSet rest).map (· + 1)
        | none => (processDecls tplParamSet rest).map (· + 1)

/-- `handle_class` (lines 242-475). `Except.ok none` is an early
`return` (skipped class), `Except.ok (some _)` a written probe file,
`Except.error` an uncaught exception. -/
def handle_class (corpus : Corpus) (cls : ClassElem) : Except String (Option ProbeOut) :=
  if isSub "/experimental/".toList cls.link then .ok none
  else
    match corpus.classPage cls.link with
    | none => .ok none
    | some page =>
      match page.header with
      | none => .ok none
      | some _header =>
        match page.classDecl with
        | none => .ok none
        | some cd =>
          let class_decl := stripC (normWs cd)
          if !(isSub "class".toList class_decl) && !(isSub "struct".toList class_decl) then
            .ok none
          else
            match get_template_params class_decl with
            | .error e => .error e
            | .ok tpl_params =>
              match pagesInto corpus
                  (sortKeys (dedupKeys (cls.overloads.map (resolveOverloadLink cls)))) [] with
              | .error e => .error e
              | .ok functions =>
                if functions.isEmpty then .ok none
                else
                  let tplSet := match tpl_params with
                    | some ps =>
                      if ps.isEmpty then []
                      else (generate_template_args ps [] []).2.2
                    | none => []
                  match processDecls tplSet functions with
                  | .error e => .error e
                  | .ok num => .ok (some ⟨cls.link, num⟩)

/-- A declaration all of whose failure points succeed. -/
def declParses (decl : List Char) : Prop :=
  (get_template_params decl).isOk = true ∧
    ∀ nm rest2, signature_match decl = some (nm, rest2) →
      (signature_split_rest rest2).isOk = true

/-! ### `process_file` (lines 478-510) -/

/-- The loop state of `process_file`: harvested `(page, overload)`
pairs, the `// PAGE:` comment count, the `/* -> */` flag, and the
current page. -/
structure ScanState where
  ret : List (Option (List Char) × Link)
  numPageComments : Nat
  takeNext : Bool
  currentPage : Option (List Char)
  deriving Repr

/-- One `(text, token)` iteration step of `process_file`. -/
def process_file_step (st : ScanState) (item : List Char × Option Token) : ScanState :=
  match item.2 with
  | none => st
  | some token =>
    if st.takeNext then
      { st with
        takeNext := false
        ret := match token.link with
          | some l => st.ret ++ [(st.currentPage, l)]
          | none => st.ret }
    else if token.type = TokenType.COMMENT then
      if item.1.take 9 = "// PAGE: ".toList then
        { st with
          currentPage := some (stripC (item.1.drop 9))
          numPageComments := st.numPageComments + 1 }
      else if item.1 = "/* -> */".toList then { st with takeNext := true }
      else st
    else st

/-- `process_file` over the highlighted `(text, token)` stream: the
harvested pairs and the failure count
`num_page_comments - len(ret)`. -/
def process_file (items : List (List Char × Option Token)) :
    List (Option (List Char) × Link) × Int :=
  let fin := items.foldl process_file_step ⟨[], 0, false, none⟩
  (fin.ret, (fin.numPageComments : Int) - fin.ret.length)

/-! ### `work` / `resolve_stl` as event traces (lines 593-684, 697-704)

The observable side effects of `work` in execution order: the optional
download and extraction, header mapping, index parsing, one probe
generation per class (`handle_class`), probe processing, failure
reporting, and the single cache write.  An exception thrown by
`handle_class` propagates out of `work` and truncates the trace. -/

inductive BuildEvent where
  | download
  | extract
  | mapHeaders
  | parseIndex
  | genProbe (link : List Char)
  | processProbe (link : List Char)
  | reportFailures
  | writeCache
  deriving DecidableEq, Repr

/-- The `handle_class` loop (lines 645-649): events emitted and, when no
exception escapes, the collected probe files. -/
def genPhase (corpus : Corpus) : List ClassElem → (List BuildEvent × Option (List (List Char)))
  | [] => ([], some [])
  | c :: rest =>
    match handle_class corpus c with
    | .error _ => ([.genProbe c.link], none)
    | .ok none =>
      let r := genPhase corpus rest
      (.genProbe c.link :: r.1, r.2)
    | .ok (some p) =>
      let r := genPhase corpus rest
      (.genProbe c.link :: r.1, r.2.map (fun fs => p.outPath :: fs))

/-- The event trace of `work`: the cache write is the final statement,
reached only when every class was handled without an exception. -/
def workTrace (archiveExists extractedExists : Bool) (corpus : Corpus)
    (classes : List ClassElem) : List BuildEvent :=
  (if archiveExists then [] else [BuildEvent.download]) ++
    (if extractedExists then [] else [BuildEvent.extract]) ++
    [BuildEvent.mapHeaders, BuildEvent.parseIndex] ++
    (genPhase corpus classes).1 ++
    (match (genPhase corpus classes).2 with
     | none => []
     | some files =>
       files.map BuildEvent.processProbe ++
         [BuildEvent.reportFailures, BuildEvent.writeCache])

inductive ResolveEvent where
  | buildKB
  | loadCache
  deriving DecidableEq, Repr

/-- `resolve_stl` entry (lines 697-704): build only when the cache file
is absent, then load it. -/
def resolveTrace (cacheExists : Bool) : List ResolveEvent :=
  (if cacheExists then [] else [ResolveEvent.buildKB]) ++ [ResolveEvent.loadCache]

/-- An empty documentation corpus. -/
def corpusTrivial : Corpus := ⟨fun _ => none, fun _ => none⟩

/-- A class entry under `/experimental/`. -/
def clsExp : ClassElem := ⟨"x".toList, "cpp/experimental/x".toList, []⟩

/-- A corpus whose single overload page carries the truncated
declaration `void f(int a` (its parameter list never closes). -/
def corpusCex : Corpus :=
  ⟨fun l =>
    if l = "cpp/foo".toList then some ⟨some "<foo>".toList, some "class foo".toList⟩
    else none,
   fun l =>
    if l = "cpp/foo".toList then some [⟨some "void f(int a".toList, 1, 99⟩]
    else none⟩

def clsCex : ClassElem := ⟨"foo".toList, "cpp/foo".toList, [⟨"f".toList, some ".".toList⟩]⟩

def pfLinkEx : Link := ⟨"f", 1, 2, "n", "std::foo::f", none, none⟩

/-- A probe scan: a first marker pair whose following token has no link,
then a second marker pair whose following token is linked. -/
def pfItemsEx : List (List Char × Option Token) :=
  [("// PAGE: cpp/foo ".toList, some ⟨0, 5, TokenType.COMMENT, none⟩),
   ("/* -> */".toList, some ⟨6, 8, TokenType.COMMENT, none⟩),
   ("f".toList, some ⟨15, 1, TokenType.NAME, none⟩),
   ("// PAGE: cpp/bar".toList, some ⟨20, 5, TokenType.COMMENT, none⟩),
   ("/* -> */".toList, some ⟨26, 8, TokenType.COMMENT, none⟩),
   ("g".toList, some ⟨35, 1, TokenType.NAME, some pfLinkEx⟩)]

theorem sliceB_self (code : List Nat) (a : Nat) : sliceB code a a = [] := by
  apply List.drop_eq_nil_of_le
  simp [List.length_take]

theorem drop_take_append {α : Type} (l : List α) {a b : Nat} (hab : a ≤ b)
    (hb : b ≤ l.length) :
    (l.take b).drop a ++ l.drop b = l.drop a := by
  conv_rhs => rw [← List.take_append_drop b l]
  rw [List.drop_append_eq_append_drop]
  congr 1
  have : a - (l.take b).length = 0 := by
    rw [List.length_take]; omega
  rw [this, List.drop_zero]

theorem sliceB_append (code : List Nat) {a b c : Nat} (hab : a ≤ b) (hbc : b ≤ c)
    (hb : b ≤ code.length) :
    sliceB code a b ++ sliceB code b c = sliceB code a c := by
  unfold sliceB
  have htb : code.take b = (code.take c).take b := by
    rw [List.take_take, Nat.min_eq_left hbc]
  have hl : b ≤ (code.take c).length := by
    rw [List.length_take]; omega
  rw [htb]
  exact drop_take_append _ hab hl

/-- Length of a Python slice: when the range `[a, a+n)` is inside the buffer,
the slice has exactly `n` elements. -/
theorem sliceB_length (code : List Nat) {a n : Nat} (h : a + n ≤ code.length) :
    (sliceB code a (a + n)).length = n := by
  simp [sliceB, List.length_take]
  omega

/-- Extracting a sub-range of a slice is a slice of the original buffer
(`text[g : g+m]` where `text = code[off : off+len]`). -/
theorem sliceB_sub (code : List Nat) (off len g m : Nat) (h : g + m ≤ len) :
    ((sliceB code off (off + len)).drop g).take m = sliceB code (off + g) (off + g + m) := by
  unfold sliceB
  rw [List.drop_drop, List.drop_take, List.drop_take, List.take_take]
  congr 1
  omega

theorem lastEnd_ge_of_ordered (code : List Nat) :
    ∀ (toks : List Token) (o : Nat), tokensOrderedB code o toks = true → o ≤ lastEnd o toks := by
  intro toks
  induction toks with
  | nil => intro o _; simp [lastEnd]
  | cons t ts ih =>
    intro o hord
    simp only [tokensOrderedB, Bool.and_eq_true, decide_eq_true_eq] at hord
    obtain ⟨⟨h1, h2⟩, h3⟩ := hord
    have := ih (t.offset + t.length) h3
    simp only [lastEnd]
    omega

theorem iterConcat_eq (code : List Nat) :
    ∀ (toks : List Token) (offset : Nat), tokensOrderedB code offset toks = true →
      ((iterFragments code offset toks).map Prod.fst).flatten =
        sliceB code offset (lastEnd offset toks) := by
  intro toks
  induction toks with
  | nil =>
    intro offset _
    simp [iterFragments, lastEnd, sliceB_self]
  | cons t ts ih =>
    intro offset hord
    simp only [tokensOrderedB, Bool.and_eq_true, decide_eq_true_eq] at hord
    obtain ⟨⟨h1, h2⟩, h3⟩ := hord
    have hrest := ih (t.offset + t.length) h3
    have hle : t.offset + t.length ≤ lastEnd (t.offset + t.length) ts :=
      lastEnd_ge_of_ordered code ts _ h3
    simp only [iterFragments, lastEnd, List.map_append, List.map_cons, List.flatten_append,
      List.flatten_cons]
    rw [hrest]
    have hmid : sliceB code t.offset (t.offset + t.length) ++
        sliceB code (t.offset + t.length) (lastEnd (t.offset + t.length) ts) =
        sliceB code t.offset (lastEnd (t.offset + t.length) ts) :=
      sliceB_append code (by omega) hle h2
    by_cases hgap : offset < t.offset
    · simp only [if_pos hgap, List.map_cons, List.map_nil, List.flatten_cons, List.flatten_nil,
        List.append_nil]
      rw [hmid]
      exact sliceB_append code (a := offset) (b := t.offset)
        (c := lastEnd (t.offset + t.length) ts) (by omega) (by omega) (by omega)
    · have heq : offset = t.offset := by omega
      simp only [if_neg hgap, List.map_nil, List.flatten_nil, List.nil_append]
      rw [hmid, heq]

/-- Claim C2 (amended): when the token list is sorted, non-overlapping, in
bounds, and its last token ends exactly at the end of the source buffer,
concatenating in order all fragments yielded by the iteration reproduces
the source exactly. -/
theorem c2_round_trip (code : List Nat) (toks : List Token)
    (hord : tokensOrderedB code 0 toks = true)
    (hend : lastEnd 0 toks = code.length) :
    iterConcat code toks = code := by
  have h := iterConcat_eq code toks 0 hord
  rw [iterConcat, h, hend]
  simp [sliceB]

theorem c2_round_trip_witness :
    iterConcat [104, 32, 105] [⟨0, 1, TokenType.KEYWORD, none⟩, ⟨2, 1, TokenType.NAME, none⟩]
      = [104, 32, 105] :=
  c2_round_trip _ _ (by decide) (by decide)

/-- Claim C2, as stated, is false: a token list that is sorted,
non-overlapping and in bounds, but whose last token ends before the end of
the source (here a trailing whitespace byte follows it), does not
round-trip — `HighlightedCode.__iter__` never yields the bytes after the
last token's end. -/
theorem c2_round_trip_cex :
    tokensOrderedB [97, 32] 0 [⟨0, 1, TokenType.NAME, none⟩] = true ∧
    iterConcat [97, 32] [⟨0, 1, TokenType.NAME, none⟩] ≠ [97, 32] := by
  decide

/-! ### Properties of the hand-compiled matchers -/

theorem countWhile_le (p : Nat → Bool) : ∀ l : List Nat, countWhile p l ≤ l.length := by
  intro l
  induction l with
  | nil => simp [countWhile]
  | cons b rest ih =>
    simp only [countWhile, List.length_cons]
    split <;> omega

theorem countWhile_append (p : Nat → Bool) :
    ∀ l y : List Nat, countWhile p (l ++ y) =
      if countWhile p l = l.length then l.length + countWhile p y else countWhile p l := by
  intro l
  induction l with
  | nil => intro y; simp [countWhile]
  | cons b rest ih =>
    intro y
    simp only [List.cons_append, countWhile, List.length_cons, List.append_eq]
    by_cases hb : p b
    · rw [if_pos hb, if_pos hb, ih y]
      have := countWhile_le p rest
      split <;> split <;> omega
    · rw [if_neg hb, if_neg hb]
      have := countWhile_le p rest
      rw [if_neg (by omega)]

theorem countWhile_take (p : Nat → Bool) :
    ∀ (l : List Nat) (m : Nat), countWhile p (l.take m) = min (countWhile p l) m := by
  intro l
  induction l with
  | nil => intro m; simp [countWhile]
  | cons b rest ih =>
    intro m
    cases m with
    | zero => simp [countWhile]
    | succ m =>
      simp only [List.take_succ_cons, countWhile]
      by_cases hb : p b
      · rw [if_pos hb, if_pos hb, ih m]; omega
      · rw [if_neg hb, if_neg hb]; omega

theorem countWhile_take_all (p : Nat → Bool) :
    ∀ l : List Nat, (l.take (countWhile p l)).all p = true := by
  intro l
  induction l with
  | nil => simp
  | cons b rest ih =>
    simp only [countWhile]
    by_cases hb : p b
    · rw [if_pos hb]
      simp [hb, ih]
    · rw [if_neg hb]
      simp

theorem take_eq_cons_shape {α : Type} :
    ∀ (l : List α) (m : Nat) (c : α) (w : List α), l.take m = c :: w → ∃ w', l = c :: w' := by
  intro l m c w h
  cases l with
  | nil => simp at h
  | cons a rest =>
    cases m with
    | zero => simp at h
    | succ m =>
      simp only [List.take_succ_cons, List.cons.injEq] at h
      exact ⟨rest, by rw [h.1]⟩

theorem drop_nonempty_lt {α : Type} {l w : List α} {r : Nat} {c : α}
    (h : l.drop r = c :: w) : r < l.length := by
  have := List.length_drop r l
  rw [h] at this
  simp at this
  omega

theorem bracedRun_append (p : Nat → Bool) {t y : List Nat} {r : Nat}
    (h : bracedRun p t = some r) : bracedRun p (t ++ y) = some r := by
  unfold bracedRun at h ⊢
  by_cases h1 : 1 ≤ countWhile p t
  · rw [if_pos h1] at h
    split at h
    · rename_i w heq
      have hr : countWhile p t = r := by
        simpa using h
      have hlt : countWhile p t < t.length := drop_nonempty_lt heq
      have hcw : countWhile p (t ++ y) = countWhile p t := by
        rw [countWhile_append, if_neg (by omega)]
      rw [hcw, if_pos h1, List.drop_append_of_le_length (le_of_lt hlt), heq,
        List.cons_append]
      simpa using hr
    · exact absurd h (by simp)
  · rw [if_neg h1] at h
    simp at h

theorem bracedRun_lt {p : Nat → Bool} {t : List Nat} {r : Nat}
    (h : bracedRun p t = some r) : r < t.length := by
  unfold bracedRun at h
  by_cases h1 : 1 ≤ countWhile p t
  · rw [if_pos h1] at h
    split at h
    · rename_i w heq
      have := drop_nonempty_lt heq
      have hr : countWhile p t = r := by simpa using h
      omega
    · exact absurd h (by simp)
  · rw [if_neg h1] at h
    simp at h

theorem orElse_isSome (a b : Option Nat) : (a <|> b).isSome = (a.isSome || b.isSome) := by
  cases a <;> simp

theorem orElse_elim {a b : Option Nat} {g : Nat} (h : (a <|> b) = some g) :
    a = some g ∨ (a = none ∧ b = some g) := by
  cases a <;> simp_all

theorem escAltSimple_append {x y : List Nat} {L : Nat} (h : escAltSimple x = some L) :
    (escAltSimple (x ++ y)).isSome = true := by
  cases x with
  | nil => simp [escAltSimple] at h
  | cons c t =>
    by_cases hc : isSimpleEscByte c
    · simp [escAltSimple, hc]
    · simp [escAltSimple, hc] at h

theorem escAltSimple_le {x : List Nat} {L : Nat} (h : escAltSimple x = some L) :
    L ≤ x.length := by
  cases x with
  | nil => simp [escAltSimple] at h
  | cons c t =>
    by_cases hc : isSimpleEscByte c
    · simp [escAltSimple, hc] at h
      simp [← h]
    · simp [escAltSimple, hc] at h

theorem escAltOctal_append {x y : List Nat} {L : Nat} (h : escAltOctal x = some L) :
    (escAltOctal (x ++ y)).isSome = true := by
  unfold escAltOctal at h
  split at h
  · rename_i a b c t
    by_cases hc : (isOctByte a && isOctByte b && isOctByte c) = true
    · simp [escAltOctal, hc]
    · simp [hc] at h
  · exact absurd h (by simp)

theorem escAltOctal_le {x : List Nat} {L : Nat} (h : escAltOctal x = some L) :
    L ≤ x.length := by
  unfold escAltOctal at h
  split at h
  · rename_i a b c t
    by_cases hc : (isOctByte a && isOctByte b && isOctByte c) = true
    · rw [if_pos hc] at h
      have : L = 3 := by simpa using h.symm
      simp [this]
    · simp [hc] at h
  · exact absurd h (by simp)

theorem escAltOctBraced_append {x y : List Nat} {L : Nat} (h : escAltOctBraced x = some L) :
    (escAltOctBraced (x ++ y)).isSome = true := by
  unfold escAltOctBraced at h
  split at h
  · rename_i t
    obtain ⟨r, hr, _⟩ := Option.map_eq_some'.mp h
    simp only [List.cons_append, escAltOctBraced, bracedRun_append isOctByte hr]
    simp
  · exact absurd h (by simp)

theorem escAltOctBraced_le {x : List Nat} {L : Nat} (h : escAltOctBraced x = some L) :
    L ≤ x.length := by
  unfold escAltOctBraced at h
  split at h
  · rename_i t
    obtain ⟨r, hr, hL⟩ := Option.map_eq_some'.mp h
    have := bracedRun_lt hr
    simp only [List.length_cons]
    omega
  · exact absurd h (by simp)

theorem escAltHexRun_append {x y : List Nat} {L : Nat} (h : escAltHexRun x = some L) :
    (escAltHexRun (x ++ y)).isSome = true := by
  unfold escAltHexRun at h
  split at h
  · rename_i t
    simp only [List.cons_append, escAltHexRun]
    by_cases h1 : 1 ≤ countWhile isHexByte t
    · have : 1 ≤ countWhile isHexByte (t ++ y) := by
        rw [countWhile_append]
        have := countWhile_le isHexByte t
        split <;> omega
      simp [this]
    · simp [h1] at h
  · exact absurd h (by simp)

theorem escAltHexRun_le {x : List Nat} {L : Nat} (h : escAltHexRun x = some L) :
    L ≤ x.length := by
  unfold escAltHexRun at h
  split at h
  · rename_i t
    by_cases h1 : 1 ≤ countWhile isHexByte t
    · simp only [h1, if_pos] at h
      have := countWhile_le isHexByte t
      have hL : countWhile isHexByte t + 1 = L := by simpa using h
      simp only [List.length_cons]
      omega
    · simp [h1] at h
  · exact absurd h (by simp)

theorem escAltHexBraced_append {x y : List Nat} {L : Nat} (h : escAltHexBraced x = some L) :
    (escAltHexBraced (x ++ y)).isSome = true := by
  unfold escAltHexBraced at h
  split at h
  · rename_i t
    obtain ⟨r, hr, _⟩ := Option.map_eq_some'.mp h
    simp only [List.cons_append, escAltHexBraced, bracedRun_append isHexByte hr]
    simp
  · exact absurd h (by simp)

theorem escAltHexBraced_le {x : List Nat} {L : Nat} (h : escAltHexBraced x = some L) :
    L ≤ x.length := by
  unfold escAltHexBraced at h
  split at h
  · rename_i t
    obtain ⟨r, hr, hL⟩ := Option.map_eq_some'.mp h
    have := bracedRun_lt hr
    simp only [List.length_cons]
    omega
  · exact absurd h (by simp)

theorem escAltU4_append {x y : List Nat} {L : Nat} (h : escAltU4 x = some L) :
    (escAltU4 (x ++ y)).isSome = true := by
  unfold escAltU4 at h
  split at h
  · rename_i t
    by_cases hc : (4 ≤ t.length && (t.take 4).all isHexByte) = true
    · simp only [Bool.and_eq_true, decide_eq_true_eq] at hc
      simp only [List.cons_append, escAltU4]
      have h4 : (t ++ y).take 4 = t.take 4 := List.take_append_of_le_length (by omega)
      simp only [escAltU4, h4, hc.2]
      simp
      omega
    · simp [hc] at h
  · exact absurd h (by simp)

theorem escAltU4_le {x : List Nat} {L : Nat} (h : escAltU4 x = some L) :
    L ≤ x.length := by
  unfold escAltU4 at h
  split at h
  · rename_i t
    by_cases hc : (4 ≤ t.length && (t.take 4).all isHexByte) = true
    · rw [if_pos hc] at h
      simp only [Bool.and_eq_true, decide_eq_true_eq] at hc
      have : L = 5 := by simpa using h.symm
      simp only [List.length_cons, this]
      omega
    · simp [hc] at h
  · exact absurd h (by simp)

theorem escAltUBraced_append {x y : List Nat} {L : Nat} (h : escAltUBraced x = some L) :
    (escAltUBraced (x ++ y)).isSome = true := by
  unfold escAltUBraced at h
  split at h
  · rename_i t
    obtain ⟨r, hr, _⟩ := Option.map_eq_some'.mp h
    simp only [List.cons_append, escAltUBraced, bracedRun_append isHexByte hr]
    simp
  · exact absurd h (by simp)

theorem escAltUBraced_le {x : List Nat} {L : Nat} (h : escAltUBraced x = some L) :
    L ≤ x.length := by
  unfold escAltUBraced at h
  split at h
  · rename_i t
    obtain ⟨r, hr, hL⟩ := Option.map_eq_some'.mp h
    have := bracedRun_lt hr
    simp only [List.length_cons]
    omega
  · exact absurd h (by simp)

theorem escAltU8_append {x y : List Nat} {L : Nat} (h : escAltU8 x = some L) :
    (escAltU8 (x ++ y)).isSome = true := by
  unfold escAltU8 at h
  split at h
  · rename_i t
    by_cases hc : (8 ≤ t.length && (t.take 8).all isHexByte) = true
    · simp only [Bool.and_eq_true, decide_eq_true_eq] at hc
      simp only [List.cons_append, escAltU8]
      have h8 : (t ++ y).take 8 = t.take 8 := List.take_append_of_le_length (by omega)
      simp only [escAltU8, h8, hc.2]
      simp
      omega
    · simp [hc] at h
  · exact absurd h (by simp)

theorem escAltU8_le {x : List Nat} {L : Nat} (h : escAltU8 x = some L) :
    L ≤ x.length := by
  unfold escAltU8 at h
  split at h
  · rename_i t
    by_cases hc : (8 ≤ t.length && (t.take 8).all isHexByte) = true
    · rw [if_pos hc] at h
      simp only [Bool.and_eq_true, decide_eq_true_eq] at hc
      have : L = 9 := by simpa using h.symm
      simp only [List.length_cons, this]
      omega
    · simp [hc] at h
  · exact absurd h (by simp)

theorem escAltName_append {x y : List Nat} {L : Nat} (h : escAltName x = some L) :
    (escAltName (x ++ y)).isSome = true := by
  unfold escAltName at h
  split at h
  · rename_i t
    obtain ⟨r, hr, _⟩ := Option.map_eq_some'.mp h
    simp only [List.cons_append, escAltName, bracedRun_append _ hr]
    simp
  · exact absurd h (by simp)

theorem escAltName_le {x : List Nat} {L : Nat} (h : escAltName x = some L) :
    L ≤ x.length := by
  unfold escAltName at h
  split at h
  · rename_i t
    obtain ⟨r, hr, hL⟩ := Option.map_eq_some'.mp h
    have := bracedRun_lt hr
    simp only [List.length_cons]
    omega
  · exact absurd h (by simp)

theorem escGroup_append {x y : List Nat} {g : Nat} (h : escGroup x = some g) :
    (escGroup (x ++ y)).isSome = true := by
  unfold escGroup at h ⊢
  rcases orElse_elim h with h1 | ⟨_, h⟩
  · simp [orElse_isSome, escAltSimple_append h1]
  rcases orElse_elim h with h1 | ⟨_, h⟩
  · simp [orElse_isSome, escAltOctal_append h1]
  rcases orElse_elim h with h1 | ⟨_, h⟩
  · simp [orElse_isSome, escAltOctBraced_append h1]
  rcases orElse_elim h with h1 | ⟨_, h⟩
  · simp [orElse_isSome, escAltHexRun_append h1]
  rcases orElse_elim h with h1 | ⟨_, h⟩
  · simp [orElse_isSome, escAltHexBraced_append h1]
  rcases orElse_elim h with h1 | ⟨_, h⟩
  · simp [orElse_isSome, escAltU4_append h1]
  rcases orElse_elim h with h1 | ⟨_, h⟩
  · simp [orElse_isSome, escAltUBraced_append h1]
  rcases orElse_elim h with h1 | ⟨_, h⟩
  · simp [orElse_isSome, escAltU8_append h1]
  simp [orElse_isSome, escAltName_append h]

theorem escGroup_le {x : List Nat} {g : Nat} (h : escGroup x = some g) : g ≤ x.length := by
  unfold escGroup at h
  rcases orElse_elim h with h1 | ⟨_, h⟩
  · exact escAltSimple_le h1
  rcases orElse_elim h with h1 | ⟨_, h⟩
  · exact escAltOctal_le h1
  rcases orElse_elim h with h1 | ⟨_, h⟩
  · exact escAltOctBraced_le h1
  rcases orElse_elim h with h1 | ⟨_, h⟩
  · exact escAltHexRun_le h1
  rcases orElse_elim h with h1 | ⟨_, h⟩
  · exact escAltHexBraced_le h1
  rcases orElse_elim h with h1 | ⟨_, h⟩
  · exact escAltU4_le h1
  rcases orElse_elim h with h1 | ⟨_, h⟩
  · exact escAltUBraced_le h1
  rcases orElse_elim h with h1 | ⟨_, h⟩
  · exact escAltU8_le h1
  exact escAltName_le h

theorem escMatch_pos {s : List Nat} {L : Nat} (h : escMatch s = some L) : 1 ≤ L := by
  unfold escMatch at h
  split at h
  · obtain ⟨g, _, hL⟩ := Option.map_eq_some'.mp h
    omega
  · exact absurd h (by simp)

theorem escMatch_le {s : List Nat} {L : Nat} (h : escMatch s = some L) : L ≤ s.length := by
  unfold escMatch at h
  split at h
  · rename_i t
    obtain ⟨g, hg, hL⟩ := Option.map_eq_some'.mp h
    have := escGroup_le hg
    simp only [List.length_cons]
    omega
  · exact absurd h (by simp)

theorem escMatch_append : AppendStable escMatch := by
  intro x y L h
  unfold escMatch at h
  split at h
  · rename_i t
    obtain ⟨g, hg, _⟩ := Option.map_eq_some'.mp h
    have := escGroup_append (y := y) hg
    simp only [List.cons_append, escMatch]
    simpa using this
  · exact absurd h (by simp)

theorem interpMatch_pos {s : List Nat} {L : Nat} (h : interpMatch s = some L) : 1 ≤ L := by
  unfold interpMatch at h
  split at h
  · rename_i c t
    split at h
    · exact absurd h (by simp)
    · split at h
      · have hL := Option.some.inj h
        omega
      · exact absurd h (by simp)
  · exact absurd h (by simp)

theorem interpMatch_le {s : List Nat} {L : Nat} (h : interpMatch s = some L) : L ≤ s.length := by
  unfold interpMatch at h
  split at h
  · rename_i c t
    split at h
    · exact absurd h (by simp)
    · split at h
      · rename_i w heq
        have hlt := drop_nonempty_lt heq
        have hL := Option.some.inj h
        simp only [List.length_cons] at hlt ⊢
        omega
      · exact absurd h (by simp)
  · exact absurd h (by simp)

theorem interpMatch_append : AppendStable interpMatch := by
  intro x y L h
  unfold interpMatch at h
  split at h
  · rename_i c t
    split at h
    · exact absurd h (by simp)
    · rename_i hc
      split at h
      · rename_i w heq
        have hlt := drop_nonempty_lt heq
        have hstep : interpMatch ((123 : Nat) :: c :: (t ++ y)) =
            (if c = 123 then none
             else
               match (c :: (t ++ y)).drop (countWhile interpPred (c :: (t ++ y))) with
               | 125 :: _ => some (countWhile interpPred (c :: (t ++ y)) + 2)
               | _ => none) := rfl
        have hx : (123 : Nat) :: c :: t ++ y = 123 :: c :: (t ++ y) := rfl
        rw [hx, hstep, if_neg hc]
        have hlist : c :: (t ++ y) = (c :: t) ++ y := rfl
        have hcnt : countWhile interpPred (c :: (t ++ y)) =
            countWhile interpPred (c :: t) := by
          rw [hlist, countWhile_append, if_neg (by omega)]
        rw [hcnt, hlist, List.drop_append_of_le_length (le_of_lt hlt), heq,
          List.cons_append]
        simp
      · exact absurd h (by simp)
  · exact absurd h (by simp)

theorem matcher_ext_of_append {f : List Nat → Option Nat} (hf : AppendStable f)
    {s : List Nat} {m L : Nat} (h : f (s.take m) = some L) : (f s).isSome = true := by
  have := hf (s.take m) (s.drop m) L h
  rwa [List.take_append_drop] at this

theorem ScanSpec_weaken {f : List Nat → Option Nat} {text : List Nat} {pos : Nat}
    {ms : List (Nat × Nat)} (hfail : f (text.drop pos) = none)
    (h : ScanSpec f text (pos + 1) ms) : ScanSpec f text pos ms := by
  cases ms with
  | nil =>
    simp only [ScanSpec, NoMatch] at h ⊢
    intro q hq1 hq2
    rcases Nat.eq_or_lt_of_le hq1 with heq | hlt
    · rw [← heq]; exact hfail
    · exact h q hlt hq2
  | cons be rest =>
    obtain ⟨b, e⟩ := be
    simp only [ScanSpec] at h ⊢
    obtain ⟨h1, h2, h3, h4, h5, h6⟩ := h
    refine ⟨by omega, ?_, h3, h4, h5, h6⟩
    intro q hq1 hq2
    rcases Nat.eq_or_lt_of_le hq1 with heq | hlt
    · rw [← heq]; exact hfail
    · exact h2 q (by omega) hq2

theorem scanAux_spec {f : List Nat → Option Nat}
    (hpos : ∀ s L, f s = some L → 1 ≤ L)
    (hle : ∀ s L, f s = some L → L ≤ s.length) :
    ∀ (fuel : Nat) (text : List Nat) (pos : Nat), text.length ≤ pos + fuel →
      ScanSpec f text pos (scanAux f fuel text pos) := by
  intro fuel
  induction fuel with
  | zero =>
    intro text pos hfuel
    simp only [scanAux, ScanSpec, NoMatch]
    intro q hq1 hq2
    exact absurd hq2 (by omega)
  | succ fuel ih =>
    intro text pos hfuel
    rw [scanAux]
    by_cases hlt : pos < text.length
    · rw [if_pos hlt]
      cases hm : f (text.drop pos) with
      | some L =>
        simp only [ScanSpec]
        have h1 := hpos _ _ hm
        have h2 := hle _ _ hm
        rw [List.length_drop] at h2
        refine ⟨le_refl _, ?_, ?_, by omega, by omega, ?_⟩
        · intro q hq1 hq2; exact absurd hq2 (by omega)
        · rw [hm]; congr 1; omega
        · exact ih text (pos + L) (by omega)
      | none =>
        exact ScanSpec_weaken hm (ih text (pos + 1) (by omega))
    · rw [if_neg hlt]
      simp only [ScanSpec, NoMatch]
      intro q hq1 hq2
      exact absurd hq2 (by omega)

theorem finditer_spec {f : List Nat → Option Nat}
    (hpos : ∀ s L, f s = some L → 1 ≤ L)
    (hle : ∀ s L, f s = some L → L ≤ s.length) (text : List Nat) :
    ScanSpec f text 0 (finditer f text) :=
  scanAux_spec hpos hle text.length text 0 (by omega)

theorem scanAux_nil {f : List Nat → Option Nat} :
    ∀ (fuel : Nat) (s : List Nat) (pos : Nat),
      (∀ q, pos ≤ q → q < s.length → f (s.drop q) = none) → scanAux f fuel s pos = [] := by
  intro fuel
  induction fuel with
  | zero => intros; rfl
  | succ fuel ih =>
    intro s pos hq
    rw [scanAux]
    by_cases hlt : pos < s.length
    · rw [if_pos hlt, hq pos (le_refl _) hlt]
      exact ih s (pos + 1) (fun q h1 h2 => hq q (by omega) h2)
    · rw [if_neg hlt]

theorem finditer_nil {f : List Nat → Option Nat} {s : List Nat}
    (h : ∀ q, q < s.length → f (s.drop q) = none) : finditer f s = [] :=
  scanAux_nil _ s 0 (fun q _ h2 => h q h2)

theorem covers_append {m b : Nat} :
    ∀ {xs ys : List Token} {a : Nat}, covers a xs m → covers m ys b →
      covers a (xs ++ ys) b := by
  intro xs
  induction xs with
  | nil =>
    intro ys a h1 h2
    simp only [covers] at h1
    rw [List.nil_append, h1]
    exact h2
  | cons t ts ih =>
    intro ys a h1 h2
    obtain ⟨ht, hrest⟩ := h1
    exact ⟨ht, ih hrest h2⟩

theorem buildTokens_covers {f : List Nat → Option Nat} {text : List Nat} :
    ∀ (ms : List (Nat × Nat)) (pos off : Nat) (mTy : TokenType),
      ScanSpec f text pos ms → pos ≤ text.length →
      covers (off + pos) (buildTokens off mTy text.length pos ms) (off + text.length) := by
  intro ms
  induction ms with
  | nil =>
    intro pos off mTy hspec hpos
    simp only [buildTokens]
    by_cases h : pos < text.length
    · rw [if_pos h]
      simp only [covers]
      refine ⟨by trivial, by omega⟩
    · rw [if_neg h]
      simp only [covers]
      omega
  | cons be rest ih =>
    obtain ⟨b, e⟩ := be
    intro pos off mTy hspec hpos
    simp only [ScanSpec] at hspec
    obtain ⟨h1, h2, h3, h4, h5, h6⟩ := hspec
    have hrest := ih e off mTy h6 (by omega)
    simp only [buildTokens]
    by_cases hg : pos < b
    · rw [if_pos hg]
      refine covers_append (m := off + b) ?_ ?_
      · simp only [covers]
        refine ⟨by trivial, by omega⟩
      · simp only [covers]
        refine ⟨by trivial, ?_⟩
        have heb : off + b + (e - b) = off + e := by omega
        rw [heb]
        exact hrest
    · rw [if_neg hg]
      simp only [List.nil_append, covers]
      refine ⟨by omega, ?_⟩
      have heb : off + pos + (e - b) = off + e := by omega
      rw [heb]
      exact hrest

theorem buildTokens_mem {f : List Nat → Option Nat} {text : List Nat} :
    ∀ (ms : List (Nat × Nat)) (pos off : Nat) (mTy : TokenType) (t : Token),
      ScanSpec f text pos ms → t ∈ buildTokens off mTy text.length pos ms →
      (t.type = mTy ∧ t.link = none) ∨
      (∃ g fl, t = ⟨off + g, fl, TokenType.STRING_LITERAL, none⟩ ∧ 0 < fl ∧
        g + fl ≤ text.length ∧ NoMatch f text g (g + fl)) := by
  intro ms
  induction ms with
  | nil =>
    intro pos off mTy t hspec hmem
    simp only [buildTokens] at hmem
    by_cases h : pos < text.length
    · rw [if_pos h] at hmem
      simp only [List.mem_singleton] at hmem
      right
      refine ⟨pos, text.length - pos, hmem, by omega, by omega, ?_⟩
      have : pos + (text.length - pos) = text.length := by omega
      rw [this]
      exact hspec
    · rw [if_neg h] at hmem
      simp at hmem
  | cons be rest ih =>
    obtain ⟨b, e⟩ := be
    intro pos off mTy t hspec hmem
    simp only [ScanSpec] at hspec
    obtain ⟨h1, h2, h3, h4, h5, h6⟩ := hspec
    simp only [buildTokens] at hmem
    rw [List.mem_append] at hmem
    rcases hmem with hgap | hmain
    · by_cases hg : pos < b
      · rw [if_pos hg] at hgap
        simp only [List.mem_singleton] at hgap
        right
        refine ⟨pos, b - pos, hgap, by omega, by omega, ?_⟩
        have : pos + (b - pos) = b := by omega
        rw [this]
        exact h2
      · rw [if_neg hg] at hgap
        simp at hgap
    · rw [List.mem_cons] at hmain
      rcases hmain with heq | hrest
      · left
        rw [heq]
        exact ⟨rfl, rfl⟩
      · exact ih e off mTy t h6 hrest

theorem sliceB_le (code : List Nat) (a n : Nat) : (sliceB code a (a + n)).length ≤ n := by
  simp only [sliceB, List.length_drop, List.length_take]
  omega

theorem frag_slice_eq {code : List Nat} {off len g fl : Nat}
    (h : g + fl ≤ (sliceB code off (off + len)).length) :
    sliceB code (off + g) (off + g + fl) = ((sliceB code off (off + len)).drop g).take fl := by
  have h2 : g + fl ≤ len := le_trans h (sliceB_le code off len)
  exact (sliceB_sub code off len g fl h2).symm

theorem frag_slice_len {code : List Nat} {off len g fl : Nat}
    (h : g + fl ≤ (sliceB code off (off + len)).length) :
    (sliceB code (off + g) (off + g + fl)).length = fl := by
  rw [frag_slice_eq h, List.length_take, List.length_drop]
  omega

/-- A gap certified match-free by `ScanSpec`, re-extracted as a standalone
byte string, scans to no matches at all: append stability lifts any match
inside the fragment to a match inside the original text. -/
theorem frag_finditer_nil {f : List Nat → Option Nat} (hf : AppendStable f)
    {code : List Nat} {off len g fl : Nat}
    (h : g + fl ≤ (sliceB code off (off + len)).length)
    (hnm : NoMatch f (sliceB code off (off + len)) g (g + fl)) :
    finditer f (sliceB code (off + g) (off + g + fl)) = [] := by
  rw [frag_slice_eq h]
  apply finditer_nil
  intro q hq
  have hql : q < fl := by
    rw [List.length_take, List.length_drop] at hq
    omega
  have heq : (((sliceB code off (off + len)).drop g).take fl).drop q =
      ((sliceB code off (off + len)).drop (g + q)).take (fl - q) := by
    rw [List.drop_take, List.drop_drop]
  cases hm : f ((((sliceB code off (off + len)).drop g).take fl).drop q) with
  | none => rfl
  | some L =>
    exfalso
    rw [heq] at hm
    have hsome := matcher_ext_of_append hf hm
    rw [hnm (g + q) (by omega) (by omega)] at hsome
    simp at hsome

theorem escape_codes_tok_fix (code : List Nat) (tok t : Token)
    (hmem : t ∈ escape_codes_tok code tok) : escape_codes_tok code t = [t] := by
  by_cases hty : tok.type ≠ TokenType.STRING_LITERAL
  · rw [escape_codes_tok, if_pos hty] at hmem
    simp only [List.mem_singleton] at hmem
    subst hmem
    rw [escape_codes_tok, if_pos hty]
  · rw [escape_codes_tok, if_neg hty] at hmem
    by_cases hq : (sliceB code tok.offset (tok.offset + tok.length)).contains 34 = true
    · rw [if_neg (by rw [hq]; simp)] at hmem
      by_cases hr : ((sliceB code tok.offset (tok.offset + tok.length)).takeWhile
          (fun b => !(b == 34))).contains 82 = true
      · rw [if_pos hr] at hmem
        simp only [List.mem_singleton] at hmem
        subst hmem
        rw [escape_codes_tok, if_neg hty, if_neg (by rw [hq]; simp), if_pos hr]
      · rw [if_neg hr] at hmem
        have hspec := finditer_spec (f := escMatch) (fun _ _ h => escMatch_pos h)
          (fun _ _ h => escMatch_le h) (sliceB code tok.offset (tok.offset + tok.length))
        rcases buildTokens_mem _ _ _ _ _ hspec hmem with ⟨hty2, _⟩ | ⟨g, fl, heq, hfl, hgfl, hnm⟩
        · rw [escape_codes_tok, if_pos (by rw [hty2]; decide)]
        · subst heq
          have hcond : ¬((⟨tok.offset + g, fl, TokenType.STRING_LITERAL, none⟩ : Token).type
              ≠ TokenType.STRING_LITERAL) := fun hcon => hcon rfl
          rw [escape_codes_tok, if_neg hcond]
          dsimp only
          by_cases hq2 : (sliceB code (tok.offset + g) (tok.offset + g + fl)).contains 34 = true
          · rw [if_neg (by rw [hq2]; simp)]
            by_cases hr2 : ((sliceB code (tok.offset + g) (tok.offset + g + fl)).takeWhile
                (fun b => !(b == 34))).contains 82 = true
            · rw [if_pos hr2]
            · rw [if_neg hr2]
              rw [frag_finditer_nil escMatch_append hgfl hnm, frag_slice_len hgfl,
                buildTokens, if_pos hfl]
              norm_num
          · have hq2' : (sliceB code (tok.offset + g) (tok.offset + g + fl)).contains 34
                = false := by
              revert hq2
              cases (sliceB code (tok.offset + g) (tok.offset + g + fl)).contains 34 <;> simp
            rw [if_pos (by rw [hq2']; rfl)]
    · have hq' : (sliceB code tok.offset (tok.offset + tok.length)).contains 34 = false := by
        revert hq
        cases (sliceB code tok.offset (tok.offset + tok.length)).contains 34 <;> simp
      rw [if_pos (by rw [hq']; rfl)] at hmem
      simp only [List.mem_singleton] at hmem
      subst hmem
      rw [escape_codes_tok, if_neg hty, if_pos (by rw [hq']; rfl)]

theorem string_interpolation_tok_fix (code : List Nat) (tok t : Token)
    (hmem : t ∈ string_interpolation_tok code tok) : string_interpolation_tok code t = [t] := by
  by_cases hty : tok.type ≠ TokenType.STRING_LITERAL
  · rw [string_interpolation_tok, if_pos hty] at hmem
    simp only [List.mem_singleton] at hmem
    subst hmem
    rw [string_interpolation_tok, if_pos hty]
  · rw [string_interpolation_tok, if_neg hty] at hmem
    by_cases hq : (sliceB code tok.offset (tok.offset + tok.length)).contains 34 = true
    · rw [if_neg (by rw [hq]; simp)] at hmem
      have hspec := finditer_spec (f := interpMatch) (fun _ _ h => interpMatch_pos h)
        (fun _ _ h => interpMatch_le h) (sliceB code tok.offset (tok.offset + tok.length))
      rcases buildTokens_mem _ _ _ _ _ hspec hmem with ⟨hty2, _⟩ | ⟨g, fl, heq, hfl, hgfl, hnm⟩
      · rw [string_interpolation_tok, if_pos (by rw [hty2]; decide)]
      · subst heq
        have hcond : ¬((⟨tok.offset + g, fl, TokenType.STRING_LITERAL, none⟩ : Token).type
            ≠ TokenType.STRING_LITERAL) := fun hcon => hcon rfl
        rw [string_interpolation_tok, if_neg hcond]
        dsimp only
        by_cases hq2 : (sliceB code (tok.offset + g) (tok.offset + g + fl)).contains 34 = true
        · rw [if_neg (by rw [hq2]; simp)]
          rw [frag_finditer_nil interpMatch_append hgfl hnm, frag_slice_len hgfl,
            buildTokens, if_pos hfl]
          norm_num
        · have hq2' : (sliceB code (tok.offset + g) (tok.offset + g + fl)).contains 34
              = false := by
            revert hq2
            cases (sliceB code (tok.offset + g) (tok.offset + g + fl)).contains 34 <;> simp
          rw [if_pos (by rw [hq2']; rfl)]
    · have hq' : (sliceB code tok.offset (tok.offset + tok.length)).contains 34 = false := by
        revert hq
        cases (sliceB code tok.offset (tok.offset + tok.length)).contains 34 <;> simp
      rw [if_pos (by rw [hq']; rfl)] at hmem
      simp only [List.mem_singleton] at hmem
      subst hmem
      rw [string_interpolation_tok, if_neg hty, if_pos (by rw [hq']; rfl)]

theorem flatMap_fix_eq {F : Token → List Token}
    (hfix : ∀ x t, t ∈ F x → F t = [t]) :
    ∀ l : List Token, (l.flatMap F).flatMap F = l.flatMap F := by
  have single : ∀ m : List Token, (∀ t ∈ m, F t = [t]) → m.flatMap F = m := by
    intro m
    induction m with
    | nil => simp
    | cons a as ihm =>
      intro h
      simp only [List.flatMap_cons]
      rw [h a (by simp), ihm (fun t ht => h t (by simp [ht]))]
      simp
  intro l
  induction l with
  | nil => simp
  | cons x xs ih =>
    simp only [List.flatMap_cons, List.flatMap_append]
    rw [ih]
    congr 1
    exact single (F x) (fun t ht => hfix x t ht)

/-- Anatomy of a successful `INCLUDE_REGEX` match: the leading `#`, the
`stmt` group ending after the literal `include`, the whitespace run, and
the bracketed file spec. -/
theorem includeMatch_elim {s : List Nat} {se fb fe : Nat}
    (h : includeMatch s = some (se, fb, fe)) :
    ∃ t, s = 35 :: t ∧
      se = 1 + countWhile isWsByte t + 7 ∧
      (s.drop (1 + countWhile isWsByte t)).take 7 = [105, 110, 99, 108, 117, 100, 101] ∧
      fb = se + countWhile isWsByte (s.drop se) ∧
      ∃ c rest, s.drop fb = c :: rest ∧ (c = 60 ∨ c = 34) ∧
        ∃ k, lastCloser rest = some k ∧ fe = fb + 1 + k + 1 := by
  unfold includeMatch at h
  split at h
  · exact absurd h (by simp)
  · rename_i c0 t
    split at h
    · rename_i hc0
      subst hc0
      split at h
      · rename_i hinc
        dsimp only at h
        split at h
        · rename_i c rest heq
          split at h
          · rename_i hc
            split at h
            · rename_i k hk
              obtain ⟨h1, h2, h3⟩ : 1 + countWhile isWsByte t + 7 = se ∧
                  1 + countWhile isWsByte t + 7 +
                    countWhile isWsByte ((35 :: t).drop (1 + countWhile isWsByte t + 7)) = fb ∧
                  1 + countWhile isWsByte t + 7 +
                    countWhile isWsByte ((35 :: t).drop (1 + countWhile isWsByte t + 7)) +
                    1 + k + 1 = fe := by
                simpa using h
              subst h1
              subst h2
              subst h3
              exact ⟨t, rfl, rfl, hinc, rfl, c, rest, heq, by simpa using hc, k, hk, rfl⟩
            · exact absurd h (by simp)
          · exact absurd h (by simp)
        · exact absurd h (by simp)
      · exact absurd h (by simp)
    · exact absurd h (by simp)

theorem findLastIdx_lt {p : Nat → Bool} :
    ∀ {l : List Nat} {k : Nat}, findLastIdx p l = some k → k < l.length := by
  intro l
  induction l with
  | nil => intro k h; simp [findLastIdx] at h
  | cons b rest ih =>
    intro k h
    unfold findLastIdx at h
    split at h
    · rename_i k' hk'
      have := ih hk'
      have hkk : k' + 1 = k := by simpa using h
      simp only [List.length_cons]
      omega
    · split at h
      · have h0 : (0 : Nat) = k := by simpa using h
        simp only [List.length_cons]
        omega
      · exact absurd h (by simp)

theorem findLastIdx_get {p : Nat → Bool} :
    ∀ {l : List Nat} {k : Nat}, findLastIdx p l = some k →
      ∃ b, l[k]? = some b ∧ p b = true := by
  intro l
  induction l with
  | nil => intro k h; simp [findLastIdx] at h
  | cons b rest ih =>
    intro k h
    unfold findLastIdx at h
    split at h
    · rename_i k' hk'
      obtain ⟨v, hv, hp⟩ := ih hk'
      have hkk : k' + 1 = k := by simpa using h
      refine ⟨v, ?_, hp⟩
      rw [← hkk]
      simpa using hv
    · split at h
      · rename_i hp
        have h0 : (0 : Nat) = k := by simpa using h
        exact ⟨b, by rw [← h0]; simp, hp⟩
      · exact absurd h (by simp)

theorem lastCloser_lt {rest : List Nat} {k : Nat} (h : lastCloser rest = some k) :
    k < rest.length := by
  have h1 := findLastIdx_lt h
  have h2 : (rest.takeWhile (fun b => !(b == 10))).length ≤ rest.length :=
    (List.takeWhile_prefix _).length_le
  omega

theorem includeMatch_bounds {s : List Nat} {se fb fe : Nat}
    (h : includeMatch s = some (se, fb, fe)) :
    1 ≤ se ∧ se ≤ fb ∧ fb < fe ∧ fe ≤ s.length := by
  obtain ⟨t, rfl, hse, hinc, hfb, c, rest, hdrop, hc, k, hk, hfe⟩ := includeMatch_elim h
  have hklt := lastCloser_lt hk
  have hfblt : fb < (35 :: t).length := drop_nonempty_lt hdrop
  have hlen : ((35 :: t).drop fb).length = rest.length + 1 := by rw [hdrop]; rfl
  rw [List.length_drop] at hlen
  omega

theorem includeMatch_end_none {t' : List Nat}
    (hinc : ((35 :: t').drop (1 + countWhile isWsByte t')).take 7
      = [105, 110, 99, 108, 117, 100, 101])
    (hlen : t'.length = countWhile isWsByte t' + 7) :
    includeMatch ((35 : Nat) :: t') = none := by
  rw [includeMatch]
  rw [if_pos rfl, if_pos hinc]
  dsimp only
  have hd : ((35 : Nat) :: t').drop (1 + countWhile isWsByte t' + 7) = [] := by
    apply List.drop_eq_nil_of_le
    simp only [List.length_cons]
    omega
  rw [hd]
  simp only [countWhile, Nat.add_zero]
  rw [hd]

theorem includeMatch_take_stmt {s : List Nat} {se fb fe : Nat}
    (h : includeMatch s = some (se, fb, fe)) : includeMatch (s.take se) = none := by
  obtain ⟨t, rfl, hse, hinc, hfb, c, rest, hdrop, hc, k, hk, hfe⟩ := includeMatch_elim h
  subst hse
  have hfblt : fb < (35 :: t).length := drop_nonempty_lt hdrop
  have htlen : countWhile isWsByte t + 7 ≤ t.length := by
    simp only [List.length_cons] at hfblt
    omega
  have hsplit : (1 : Nat) + countWhile isWsByte t + 7 = (countWhile isWsByte t + 7) + 1 := by
    omega
  rw [hsplit, List.take_succ_cons]
  have hcw : countWhile isWsByte (t.take (countWhile isWsByte t + 7)) =
      countWhile isWsByte t := by
    rw [countWhile_take]
    omega
  apply includeMatch_end_none
  · rw [hcw]
    have hdrop1 : ((35 : Nat) :: t.take (countWhile isWsByte t + 7)).drop
        (1 + countWhile isWsByte t) = (t.take (countWhile isWsByte t + 7)).drop
        (countWhile isWsByte t) := by
      have : (1 : Nat) + countWhile isWsByte t = countWhile isWsByte t + 1 := by omega
      rw [this, List.drop_succ_cons]
    rw [hdrop1, List.drop_take]
    have h7 : countWhile isWsByte t + 7 - countWhile isWsByte t = 7 := by omega
    rw [h7, List.take_take, Nat.min_self]
    have hdrop2 : ((35 : Nat) :: t).drop (1 + countWhile isWsByte t) =
        t.drop (countWhile isWsByte t) := by
      have : (1 : Nat) + countWhile isWsByte t = countWhile isWsByte t + 1 := by omega
      rw [this, List.drop_succ_cons]
    rw [hdrop2] at hinc
    exact hinc
  · rw [hcw, List.length_take]
    omega

theorem sliceB_take (code : List Nat) {off len m : Nat} (h : m ≤ len) :
    (sliceB code off (off + len)).take m = sliceB code off (off + m) := by
  have := sliceB_sub code off len 0 m (by omega)
  rw [List.drop_zero] at this
  rw [this, Nat.add_zero]

theorem gift_append (code : List Nat) : ∀ xs ys : List Token,
    generate_include_file_tokens code (xs ++ ys) =
      (generate_include_file_tokens code xs).bind
        (fun a => (generate_include_file_tokens code ys).map (fun b => a ++ b)) := by
  intro xs
  induction xs with
  | nil =>
    intro ys
    simp only [List.nil_append, generate_include_file_tokens, Option.bind]
    cases generate_include_file_tokens code ys <;> simp
  | cons x xs ih =>
    intro ys
    simp only [List.cons_append, generate_include_file_tokens, List.append_eq]
    cases h1 : generate_include_file_tokens_tok code x with
    | none => simp
    | some hd =>
      dsimp only
      rw [ih ys]
      cases h2 : generate_include_file_tokens code xs with
      | none => simp
      | some a =>
        cases h3 : generate_include_file_tokens code ys with
        | none => simp
        | some b => simp [List.append_assoc]

theorem gift_no_pp (code : List Nat) : ∀ ts : List Token,
    (∀ t ∈ ts, t.type ≠ TokenType.PREPROCESSOR) →
    generate_include_file_tokens code ts = some ts := by
  intro ts
  induction ts with
  | nil => intro _; rfl
  | cons x xs ih =>
    intro h
    simp only [generate_include_file_tokens, generate_include_file_tokens_tok,
      if_neg (h x (by simp))]
    rw [ih (fun t ht => h t (by simp [ht]))]
    simp

theorem gift_fail_mem (code : List Nat) : ∀ (ts : List Token) (x : Token), x ∈ ts →
    generate_include_file_tokens_tok code x = none →
    generate_include_file_tokens code ts = none := by
  intro ts
  induction ts with
  | nil => intro x hx; simp at hx
  | cons y ys ih =>
    intro x hx hfail
    rw [List.mem_cons] at hx
    simp only [generate_include_file_tokens]
    rcases hx with rfl | hx
    · rw [hfail]
    · cases h1 : generate_include_file_tokens_tok code y with
      | none => rfl
      | some hd => rw [ih x hx hfail]

theorem gift_mem_pp (code : List Nat) : ∀ (ts out : List Token),
    generate_include_file_tokens code ts = some out →
    ∀ t ∈ out, t.type = TokenType.PREPROCESSOR →
    ∃ tok se fb fe, tok ∈ ts ∧
      includeMatch (sliceB code tok.offset (tok.offset + tok.length)) = some (se, fb, fe) ∧
      t = ⟨tok.offset, se, TokenType.PREPROCESSOR, none⟩ := by
  intro ts
  induction ts with
  | nil =>
    intro out hout t hmem _
    simp only [generate_include_file_tokens] at hout
    rw [← Option.some.inj hout] at hmem
    simp at hmem
  | cons x xs ih =>
    intro out hout t hmem htype
    simp only [generate_include_file_tokens] at hout
    cases h1 : generate_include_file_tokens_tok code x with
    | none => rw [h1] at hout; exact absurd hout (by simp)
    | some hd =>
      rw [h1] at hout
      cases h2 : generate_include_file_tokens code xs with
      | none => rw [h2] at hout; exact absurd hout (by simp)
      | some tl =>
        rw [h2] at hout
        rw [← Option.some.inj hout, List.mem_append] at hmem
        rcases hmem with hmem | hmem
        · unfold generate_include_file_tokens_tok at h1
          by_cases hpp : x.type = TokenType.PREPROCESSOR
          · rw [if_pos hpp] at h1
            cases hm : includeMatch (sliceB code x.offset (x.offset + x.length)) with
            | none => rw [hm] at h1; exact absurd h1 (by simp)
            | some v =>
              obtain ⟨se, fb, fe⟩ := v
              rw [hm] at h1
              rw [← Option.some.inj h1, List.mem_cons] at hmem
              rcases hmem with hmem | hmem
              · exact ⟨x, se, fb, fe, by simp, hm, hmem⟩
              · simp only [List.mem_singleton] at hmem
                rw [hmem] at htype
                exact absurd htype (fun hcon => by simp at hcon)
          · rw [if_neg hpp] at h1
            rw [← Option.some.inj h1] at hmem
            simp only [List.mem_singleton] at hmem
            rw [hmem] at htype
            exact absurd htype hpp
        · obtain ⟨tok, se, fb, fe, htok, hm, heq⟩ := ih tl h2 t hmem htype
          exact ⟨tok, se, fb, fe, by simp [htok], hm, heq⟩

/-- A `PREPROCESSOR` directive sub-token produced by the include split
fails the include pattern when rescanned (its text is `#…include` with no
file part), so a second application of the pass fails. -/
theorem gift_second_none (code : List Nat) (ts out : List Token) (t : Token)
    (hout : generate_include_file_tokens code ts = some out) (hmem : t ∈ out)
    (hpp : t.type = TokenType.PREPROCESSOR) :
    generate_include_file_tokens code out = none := by
  obtain ⟨tok, se, fb, fe, _, hm, heq⟩ := gift_mem_pp code ts out hout t hmem hpp
  apply gift_fail_mem code out t hmem
  rw [heq]
  obtain ⟨_, h2, h3, h4⟩ := includeMatch_bounds hm
  have hsele : se ≤ tok.length :=
    le_trans (by omega) (le_trans h4 (by
      simpa using sliceB_le code tok.offset tok.length))
  have htext : sliceB code tok.offset (tok.offset + se) =
      (sliceB code tok.offset (tok.offset + tok.length)).take se :=
    (sliceB_take code hsele).symm
  unfold generate_include_file_tokens_tok
  rw [if_pos rfl]
  dsimp only
  rw [htext, includeMatch_take_stmt hm]

theorem includeMatch_shape {s : List Nat} {se fb fe : Nat}
    (h : includeMatch s = some (se, fb, fe)) :
    (∃ w, s.take se = 35 :: (w ++ [105, 110, 99, 108, 117, 100, 101]) ∧
      w.all isWsByte = true) ∧
    (∃ c, s[fb]? = some c ∧ (c = 60 ∨ c = 34)) ∧
    (∃ cl, s[fe - 1]? = some cl ∧ (cl = 34 ∨ cl = 62)) := by
  obtain ⟨t, rfl, hse, hinc, hfb, c, rest, hdrop, hc, k, hk, hfe⟩ := includeMatch_elim h
  refine ⟨⟨t.take (countWhile isWsByte t), ?_, countWhile_take_all isWsByte t⟩, ?_, ?_⟩
  · have hsucc : se = (countWhile isWsByte t + 7) + 1 := by omega
    rw [hsucc, List.take_succ_cons]
    congr 1
    rw [List.take_add]
    congr 1
    have hdr : ((35 : Nat) :: t).drop (1 + countWhile isWsByte t) =
        t.drop (countWhile isWsByte t) := by
      have : (1 : Nat) + countWhile isWsByte t = countWhile isWsByte t + 1 := by omega
      rw [this, List.drop_succ_cons]
    rw [hdr] at hinc
    exact hinc
  · refine ⟨c, ?_, by omega⟩
    have := List.getElem?_drop ((35 : Nat) :: t) fb 0
    rw [hdrop] at this
    simpa using this.symm
  · obtain ⟨b, hbk, hpb⟩ := findLastIdx_get hk
    obtain ⟨tail, htail⟩ := List.takeWhile_prefix (l := rest) (fun b => !(b == 10))
    have hklt := findLastIdx_lt hk
    have hbk2 : rest[k]? = some b := by
      rw [← htail, List.getElem?_append, if_pos hklt]
      exact hbk
    refine ⟨b, ?_, by simpa using hpb⟩
    have hrest : ((35 : Nat) :: t).drop (fb + 1) = rest := by
      have : fb + 1 = fb + 1 := rfl
      rw [← List.drop_drop, hdrop]
      rfl
    have := List.getElem?_drop ((35 : Nat) :: t) (fb + 1) k
    rw [hrest, hbk2] at this
    have hidx : fe - 1 = fb + 1 + k := by omega
    rw [hidx, ← this]

/-- Claim C4: the include-split pass maps every `PREPROCESSOR` token whose
text matches the include pattern to exactly two sub-tokens — a link-free
`PREPROCESSOR` directive token covering `#`, optional whitespace, and the
literal `include`, followed by a `PREPROCESSOR_FILE` token carrying the
original link and covering the bracketed file spec — while a failed match
aborts the whole pass with an error regardless of the token's position,
and every token of any other category passes through unchanged. -/
theorem c4_include_split (code : List Nat) (tok : Token) (pre post : List Token) :
    (tok.type ≠ TokenType.PREPROCESSOR →
      generate_include_file_tokens code [tok] = some [tok]) ∧
    (tok.type = TokenType.PREPROCESSOR →
      includeMatch (sliceB code tok.offset (tok.offset + tok.length)) = none →
      generate_include_file_tokens code (pre ++ tok :: post) = none) ∧
    (∀ se fb fe, tok.type = TokenType.PREPROCESSOR →
      includeMatch (sliceB code tok.offset (tok.offset + tok.length)) = some (se, fb, fe) →
      generate_include_file_tokens code [tok] =
        some [⟨tok.offset, se, TokenType.PREPROCESSOR, none⟩,
              ⟨tok.offset + fb, fe - fb, TokenType.PREPROCESSOR_FILE, tok.link⟩] ∧
      (∃ w, (sliceB code tok.offset (tok.offset + tok.length)).take se =
          35 :: (w ++ [105, 110, 99, 108, 117, 100, 101]) ∧ w.all isWsByte = true) ∧
      (∃ c, (sliceB code tok.offset (tok.offset + tok.length))[fb]? = some c ∧
        (c = 60 ∨ c = 34)) ∧
      (∃ cl, (sliceB code tok.offset (tok.offset + tok.length))[fe - 1]? = some cl ∧
        (cl = 34 ∨ cl = 62))) := by
  refine ⟨?_, ?_, ?_⟩
  · intro hty
    exact gift_no_pp code [tok] (by simpa using hty)
  · intro hty hm
    apply gift_fail_mem code _ tok (by simp)
    rw [generate_include_file_tokens_tok, if_pos hty, hm]
  · intro se fb fe hty hm
    obtain ⟨hshape1, hshape2, hshape3⟩ := includeMatch_shape hm
    refine ⟨?_, hshape1, hshape2, hshape3⟩
    simp only [generate_include_file_tokens, generate_include_file_tokens_tok,
      if_pos hty, hm]
    rfl

theorem c4_include_split_witness :
    generate_include_file_tokens [35, 105, 110, 99, 108, 117, 100, 101, 32, 60, 97, 62]
      [⟨0, 12, TokenType.PREPROCESSOR, none⟩] =
      some [⟨0, 8, TokenType.PREPROCESSOR, none⟩,
            ⟨9, 3, TokenType.PREPROCESSOR_FILE, none⟩] := by
  have h := ((c4_include_split [35, 105, 110, 99, 108, 117, 100, 101, 32, 60, 97, 62]
      ⟨0, 12, TokenType.PREPROCESSOR, none⟩ [] []).2.2 8 9 12 rfl (by decide)).1
  simpa using h

/-- Claim C3 (amended): the escape-decomposition and interpolation passes
are each idempotent on every token list; the include-split pass is
idempotent only on lists with no `PREPROCESSOR` token — re-applying it to
an output that contains a directive sub-token raises an error instead. -/
theorem c3_refinement_idempotence :
    (∀ (code : List Nat) (toks : List Token),
      escape_codes code (escape_codes code toks) = escape_codes code toks) ∧
    (∀ (code : List Nat) (toks : List Token),
      string_interpolation code (string_interpolation code toks) =
        string_interpolation code toks) ∧
    (∀ (code : List Nat) (toks : List Token),
      (∀ t ∈ toks, t.type ≠ TokenType.PREPROCESSOR) →
      generate_include_file_tokens code toks = some toks) ∧
    (∀ (code : List Nat) (ts out : List Token) (t : Token),
      generate_include_file_tokens code ts = some out → t ∈ out →
      t.type = TokenType.PREPROCESSOR →
      generate_include_file_tokens code out = none) := by
  refine ⟨?_, ?_, ?_, ?_⟩
  · intro code toks
    exact flatMap_fix_eq (escape_codes_tok_fix code) toks
  · intro code toks
    exact flatMap_fix_eq (string_interpolation_tok_fix code) toks
  · intro code toks h
    exact gift_no_pp code toks h
  · intro code ts out t h1 h2 h3
    exact gift_second_none code ts out t h1 h2 h3

theorem c3_refinement_idempotence_witness :
    escape_codes [34, 92, 110, 34] (escape_codes [34, 92, 110, 34]
      [⟨0, 4, TokenType.STRING_LITERAL, none⟩]) =
      escape_codes [34, 92, 110, 34] [⟨0, 4, TokenType.STRING_LITERAL, none⟩] ∧
    generate_include_file_tokens ([] : List Nat) [⟨0, 1, TokenType.NAME, none⟩] =
      some [⟨0, 1, TokenType.NAME, none⟩] :=
  ⟨c3_refinement_idempotence.1 _ _, c3_refinement_idempotence.2.2.1 _ _ (by decide)⟩

/-- Claim C3, as stated, is false for the include-directive split: on the
output of one application (the directive sub-token `#include` of
`#include <a>`), a second application does not succeed — it raises
(`none` models the `RuntimeError`), because the directive sub-token's text
no longer contains a file part. -/
theorem c3_refinement_idempotence_cex :
    generate_include_file_tokens [35, 105, 110, 99, 108, 117, 100, 101, 32, 60, 97, 62]
      [⟨0, 12, TokenType.PREPROCESSOR, none⟩] =
      some [⟨0, 8, TokenType.PREPROCESSOR, none⟩,
            ⟨9, 3, TokenType.PREPROCESSOR_FILE, none⟩] ∧
    generate_include_file_tokens [35, 105, 110, 99, 108, 117, 100, 101, 32, 60, 97, 62]
      [⟨0, 8, TokenType.PREPROCESSOR, none⟩,
       ⟨9, 3, TokenType.PREPROCESSOR_FILE, none⟩] = none := by
  decide

/-- Claim C10: each refinement pass distributes over concatenation (so it
rewrites tokens in place, preserving relative order), and every token that
does not meet a pass's trigger condition is passed through unchanged:
non-`PREPROCESSOR` tokens by the include split; non-`STRING_LITERAL`
tokens and quote-free tokens by both string passes; and raw strings
(prefix containing `R`, byte 82) by the escape pass alone. -/
theorem c10_frame (code : List Nat) (tok : Token) (xs ys : List Token) :
    (escape_codes code (xs ++ ys) = escape_codes code xs ++ escape_codes code ys) ∧
    (string_interpolation code (xs ++ ys) =
      string_interpolation code xs ++ string_interpolation code ys) ∧
    (generate_include_file_tokens code (xs ++ ys) =
      (generate_include_file_tokens code xs).bind
        (fun a => (generate_include_file_tokens code ys).map (fun b => a ++ b))) ∧
    (tok.type ≠ TokenType.PREPROCESSOR →
      generate_include_file_tokens code [tok] = some [tok]) ∧
    (tok.type ≠ TokenType.STRING_LITERAL →
      escape_codes code [tok] = [tok] ∧ string_interpolation code [tok] = [tok]) ∧
    ((sliceB code tok.offset (tok.offset + tok.length)).contains 34 = false →
      escape_codes code [tok] = [tok] ∧ string_interpolation code [tok] = [tok]) ∧
    (tok.type = TokenType.STRING_LITERAL →
      ((sliceB code tok.offset (tok.offset + tok.length)).takeWhile
        (fun b => !(b == 34))).contains 82 = true →
      escape_codes code [tok] = [tok]) := by
  refine ⟨List.flatMap_append xs ys _, List.flatMap_append xs ys _, gift_append code xs ys,
    ?_, ?_, ?_, ?_⟩
  · intro hty
    exact gift_no_pp code [tok] (by simpa using hty)
  · intro hty
    constructor
    · simp only [escape_codes, List.flatMap_cons, List.flatMap_nil, List.append_nil]
      rw [escape_codes_tok, if_pos hty]
    · simp only [string_interpolation, List.flatMap_cons, List.flatMap_nil, List.append_nil]
      rw [string_interpolation_tok, if_pos hty]
  · intro hq
    constructor
    · simp only [escape_codes, List.flatMap_cons, List.flatMap_nil, List.append_nil]
      rw [escape_codes_tok]
      by_cases hty : tok.type ≠ TokenType.STRING_LITERAL
      · rw [if_pos hty]
      · rw [if_neg hty, if_pos (by rw [hq]; rfl)]
    · simp only [string_interpolation, List.flatMap_cons, List.flatMap_nil, List.append_nil]
      rw [string_interpolation_tok]
      by_cases hty : tok.type ≠ TokenType.STRING_LITERAL
      · rw [if_pos hty]
      · rw [if_neg hty, if_pos (by rw [hq]; rfl)]
  · intro hty hr
    simp only [escape_codes, List.flatMap_cons, List.flatMap_nil, List.append_nil]
    rw [escape_codes_tok, if_neg (fun hcon => hcon hty)]
    by_cases hq : (sliceB code tok.offset (tok.offset + tok.length)).contains 34 = true
    · rw [if_neg (by rw [hq]; simp), if_pos hr]
    · have hq' : (sliceB code tok.offset (tok.offset + tok.length)).contains 34 = false := by
        revert hq
        cases (sliceB code tok.offset (tok.offset + tok.length)).contains 34 <;> simp
      rw [if_pos (by rw [hq']; rfl)]

theorem c10_frame_witness :
    escape_codes [82, 34, 92, 110, 34] [⟨0, 5, TokenType.STRING_LITERAL, none⟩] =
      [⟨0, 5, TokenType.STRING_LITERAL, none⟩] ∧
    string_interpolation [40, 41] [⟨0, 1, TokenType.PUNCTUATION, none⟩] =
      [⟨0, 1, TokenType.PUNCTUATION, none⟩] ∧
    generate_include_file_tokens [40, 41] [⟨0, 1, TokenType.PUNCTUATION, none⟩] =
      some [⟨0, 1, TokenType.PUNCTUATION, none⟩] :=
  ⟨(c10_frame [82, 34, 92, 110, 34] ⟨0, 5, TokenType.STRING_LITERAL, none⟩ [] []).2.2.2.2.2.2
      rfl (by decide),
   ((c10_frame [40, 41] ⟨0, 1, TokenType.PUNCTUATION, none⟩ [] []).2.2.2.2.1 (by decide)).2,
   (c10_frame [40, 41] ⟨0, 1, TokenType.PUNCTUATION, none⟩ [] []).2.2.2.1 (by decide)⟩

theorem buildTokens_types {len : Nat} :
    ∀ (ms : List (Nat × Nat)) (pos off : Nat) (mTy : TokenType) (t : Token),
      t ∈ buildTokens off mTy len pos ms →
      t.type = mTy ∨ t.type = TokenType.STRING_LITERAL := by
  intro ms
  induction ms with
  | nil =>
    intro pos off mTy t hmem
    simp only [buildTokens] at hmem
    split at hmem
    · simp only [List.mem_singleton] at hmem
      right
      rw [hmem]
    · simp at hmem
  | cons be rest ih =>
    obtain ⟨b, e⟩ := be
    intro pos off mTy t hmem
    simp only [buildTokens, List.mem_append, List.mem_cons] at hmem
    rcases hmem with hgap | heq | hrest
    · split at hgap
      · simp only [List.mem_singleton] at hgap
        right
        rw [hgap]
      · simp at hgap
    · left
      rw [heq]
    · exact ih e off mTy t hrest

theorem covers_le : ∀ {ts : List Token} {a b : Nat}, covers a ts b → a ≤ b := by
  intro ts
  induction ts with
  | nil => intro a b h; simp only [covers] at h; omega
  | cons t rest ih =>
    intro a b h
    obtain ⟨_, hrest⟩ := h
    have := ih hrest
    omega

theorem covers_bounds : ∀ {ts : List Token} {a b : Nat}, covers a ts b →
    ∀ t ∈ ts, a ≤ t.offset ∧ t.offset + t.length ≤ b := by
  intro ts
  induction ts with
  | nil => intro a b _ t ht; simp at ht
  | cons x rest ih =>
    intro a b h t ht
    obtain ⟨hoff, hrest⟩ := h
    have hle := covers_le hrest
    rw [List.mem_cons] at ht
    rcases ht with rfl | ht
    · omega
    · have := ih hrest t ht
      omega

theorem covers_flatMap {F : Token → List Token} :
    ∀ {ts : List Token} {a b : Nat}, covers a ts b →
      (∀ t ∈ ts, covers t.offset (F t) (t.offset + t.length)) →
      covers a (ts.flatMap F) b := by
  intro ts
  induction ts with
  | nil =>
    intro a b h _
    simpa [covers] using h
  | cons x rest ih =>
    intro a b h hF
    obtain ⟨hoff, hrest⟩ := h
    rw [List.flatMap_cons]
    refine covers_append (m := a + x.length) ?_ (ih hrest (fun t ht => hF t (by simp [ht])))
    have := hF x (by simp)
    rw [hoff] at this
    exact this

theorem escape_codes_tok_covers (code : List Nat) (tok : Token)
    (hb : tok.offset + tok.length ≤ code.length) :
    covers tok.offset (escape_codes_tok code tok) (tok.offset + tok.length) := by
  have hlen : (sliceB code tok.offset (tok.offset + tok.length)).length = tok.length :=
    sliceB_length code hb
  rw [escape_codes_tok]
  by_cases h1 : tok.type ≠ TokenType.STRING_LITERAL
  · rw [if_pos h1]
    exact ⟨rfl, rfl⟩
  · rw [if_neg h1]
    by_cases h2 : (!(sliceB code tok.offset (tok.offset + tok.length)).contains 34) = true
    · rw [if_pos h2]
      exact ⟨rfl, rfl⟩
    · rw [if_neg h2]
      by_cases h3 : ((sliceB code tok.offset (tok.offset + tok.length)).takeWhile
          (fun b => !(b == 34))).contains 82 = true
      · rw [if_pos h3]
        exact ⟨rfl, rfl⟩
      · rw [if_neg h3]
        have hspec := finditer_spec (f := escMatch) (fun _ _ h => escMatch_pos h)
          (fun _ _ h => escMatch_le h) (sliceB code tok.offset (tok.offset + tok.length))
        have h0 := buildTokens_covers _ 0 tok.offset TokenType.STRING_LITERAL_ESCAPE hspec
          (by omega)
        rw [Nat.add_zero] at h0
        have hend : tok.offset + (sliceB code tok.offset (tok.offset + tok.length)).length =
            tok.offset + tok.length := by rw [hlen]
        rw [hend] at h0
        exact h0

theorem string_interpolation_tok_covers (code : List Nat) (tok : Token)
    (hb : tok.offset + tok.length ≤ code.length) :
    covers tok.offset (string_interpolation_tok code tok) (tok.offset + tok.length) := by
  have hlen : (sliceB code tok.offset (tok.offset + tok.length)).length = tok.length :=
    sliceB_length code hb
  rw [string_interpolation_tok]
  by_cases h1 : tok.type ≠ TokenType.STRING_LITERAL
  · rw [if_pos h1]
    exact ⟨rfl, rfl⟩
  · rw [if_neg h1]
    by_cases h2 : (!(sliceB code tok.offset (tok.offset + tok.length)).contains 34) = true
    · rw [if_pos h2]
      exact ⟨rfl, rfl⟩
    · rw [if_neg h2]
      have hspec := finditer_spec (f := interpMatch) (fun _ _ h => interpMatch_pos h)
        (fun _ _ h => interpMatch_le h) (sliceB code tok.offset (tok.offset + tok.length))
      have h0 := buildTokens_covers _ 0 tok.offset TokenType.STRING_LITERAL_INTERPOLATION hspec
        (by omega)
      rw [Nat.add_zero] at h0
      have hend : tok.offset + (sliceB code tok.offset (tok.offset + tok.length)).length =
          tok.offset + tok.length := by rw [hlen]
      rw [hend] at h0
      exact h0

theorem escape_codes_tok_types (code : List Nat) (tok t : Token)
    (hmem : t ∈ escape_codes_tok code tok) :
    t.type = tok.type ∨ t.type = TokenType.STRING_LITERAL ∨
      t.type = TokenType.STRING_LITERAL_ESCAPE := by
  rw [escape_codes_tok] at hmem
  split at hmem
  · left; rw [List.mem_singleton.mp hmem]
  · split at hmem
    · left; rw [List.mem_singleton.mp hmem]
    · split at hmem
      · left; rw [List.mem_singleton.mp hmem]
      · rcases buildTokens_types _ _ _ _ _ hmem with h | h
        · right; right; exact h
        · right; left; exact h

theorem string_interpolation_tok_types (code : List Nat) (tok t : Token)
    (hmem : t ∈ string_interpolation_tok code tok) :
    t.type = tok.type ∨ t.type = TokenType.STRING_LITERAL ∨
      t.type = TokenType.STRING_LITERAL_INTERPOLATION := by
  rw [string_interpolation_tok] at hmem
  split at hmem
  · left; rw [List.mem_singleton.mp hmem]
  · split at hmem
    · left; rw [List.mem_singleton.mp hmem]
    · rcases buildTokens_types _ _ _ _ _ hmem with h | h
      · right; right; exact h
      · right; left; exact h

/-- Claim C5: a `STRING_LITERAL` token that contains a quote and is not a
raw string is replaced by the string decomposition with a sequence of
sub-tokens of categories `STRING_LITERAL`, `STRING_LITERAL_ESCAPE` and
`STRING_LITERAL_INTERPOLATION` that exactly tiles the token's byte range
in order with no gaps and no overlaps; on `"newline: \n"` the `\n` bytes
become one two-byte `STRING_LITERAL_ESCAPE` sub-token, and on `"{} {a}"`
the `{}` and `{a}` fragments become `STRING_LITERAL_INTERPOLATION`
sub-tokens. -/
theorem c5_string_decomposition (code : List Nat) (tok : Token)
    (hty : tok.type = TokenType.STRING_LITERAL)
    (hb : tok.offset + tok.length ≤ code.length)
    (hq : (sliceB code tok.offset (tok.offset + tok.length)).contains 34 = true)
    (hr : ((sliceB code tok.offset (tok.offset + tok.length)).takeWhile
      (fun b => !(b == 34))).contains 82 = false) :
    (covers tok.offset (string_decomposition code [tok]) (tok.offset + tok.length) ∧
      ∀ t ∈ string_decomposition code [tok],
        t.type = TokenType.STRING_LITERAL ∨ t.type = TokenType.STRING_LITERAL_ESCAPE ∨
          t.type = TokenType.STRING_LITERAL_INTERPOLATION) ∧
    string_decomposition [34, 110, 101, 119, 108, 105, 110, 101, 58, 32, 92, 110, 34]
      [⟨0, 13, TokenType.STRING_LITERAL, none⟩] =
      [⟨0, 10, TokenType.STRING_LITERAL, none⟩,
       ⟨10, 2, TokenType.STRING_LITERAL_ESCAPE, none⟩,
       ⟨12, 1, TokenType.STRING_LITERAL, none⟩] ∧
    string_decomposition [34, 123, 125, 32, 123, 97, 125, 34]
      [⟨0, 8, TokenType.STRING_LITERAL, none⟩] =
      [⟨0, 1, TokenType.STRING_LITERAL, none⟩,
       ⟨1, 2, TokenType.STRING_LITERAL_INTERPOLATION, none⟩,
       ⟨3, 1, TokenType.STRING_LITERAL, none⟩,
       ⟨4, 3, TokenType.STRING_LITERAL_INTERPOLATION, none⟩,
       ⟨7, 1, TokenType.STRING_LITERAL, none⟩] := by
  refine ⟨⟨?_, ?_⟩, by decide, by decide⟩
  · have hesc : covers tok.offset (escape_codes code [tok]) (tok.offset + tok.length) := by
      simp only [escape_codes, List.flatMap_cons, List.flatMap_nil, List.append_nil]
      exact escape_codes_tok_covers code tok hb
    refine covers_flatMap hesc ?_
    intro t ht
    have hbt := covers_bounds hesc t ht
    exact string_interpolation_tok_covers code t (by omega)
  · intro t ht
    rw [string_decomposition, string_interpolation, List.mem_flatMap] at ht
    obtain ⟨u, hu, htu⟩ := ht
    simp only [escape_codes, List.flatMap_cons, List.flatMap_nil, List.append_nil] at hu
    have hut := escape_codes_tok_types code tok u hu
    rw [hty] at hut
    have htt := string_interpolation_tok_types code u t htu
    rcases htt with htt | htt | htt
    · rw [htt]
      rcases hut with h | h | h
      · left; exact h
      · left; exact h
      · right; left; exact h
    · left; exact htt
    · right; right; exact htt

theorem c5_string_decomposition_witness :
    covers 0 (string_decomposition [34, 110, 101, 119, 108, 105, 110, 101, 58, 32, 92, 110, 34]
      [⟨0, 13, TokenType.STRING_LITERAL, none⟩]) 13 :=
  ((c5_string_decomposition [34, 110, 101, 119, 108, 105, 110, 101, 58, 32, 92, 110, 34]
    ⟨0, 13, TokenType.STRING_LITERAL, none⟩ rfl (by decide) (by decide) (by decide)).1).1

theorem lookupTM_set_self : ∀ (m : TokenMap) (k : Nat) (v : MergedToken),
    lookupTM (setTM m k v) k = some v := by
  intro m
  induction m with
  | nil => intro k v; simp [setTM, lookupTM]
  | cons kv rest ih =>
    intro k v
    obtain ⟨k0, v0⟩ := kv
    by_cases hk : k0 = k
    · simp [setTM, hk, lookupTM]
    · simp [setTM, hk, lookupTM, ih]

theorem lookupTM_set_ne : ∀ (m : TokenMap) (k key : Nat) (v : MergedToken), key ≠ k →
    lookupTM (setTM m k v) key = lookupTM m key := by
  intro m
  induction m with
  | nil =>
    intro k key v hne
    have hne2 : ¬ k = key := fun h => hne h.symm
    simp [setTM, lookupTM, hne2]
  | cons kv rest ih =>
    intro k key v hne
    obtain ⟨k0, v0⟩ := kv
    by_cases hk : k0 = k
    · subst hk
      have hne2 : ¬ k0 = key := fun h => hne h.symm
      simp [setTM, lookupTM, hne2]
    · simp only [setTM, if_neg hk, lookupTM]
      by_cases h0 : k0 = key
      · simp [h0]
      · simp [h0, ih k key v hne]

/-- Once an offset holds a macro-instantiation token, `Processor.token`
never changes that entry. -/
theorem processorToken_macro_stable {m : TokenMap} {k : Nat} {mt : MergedToken}
    (ck : CursorKind) (t : LexToken) (h : lookupTM m k = some mt)
    (hmac : mt.ckind = CursorKind.MACRO_INSTANTIATION) :
    lookupTM (processorToken m ck t) k = some mt := by
  unfold processorToken
  by_cases hk : t.startOff = k
  · rw [hk, h]
    dsimp only
    rw [if_pos hmac]
    exact h
  · cases hl : lookupTM m t.startOff with
    | none =>
      dsimp only
      rw [lookupTM_set_ne m t.startOff k _ (fun hcon => hk hcon.symm)]
      exact h
    | some old =>
      dsimp only
      by_cases hold : old.ckind = CursorKind.MACRO_INSTANTIATION
      · rw [if_pos hold]; exact h
      · rw [if_neg hold, lookupTM_set_ne m t.startOff k _ (fun hcon => hk hcon.symm)]
        exact h

theorem processorToken_frame {m : TokenMap} {k : Nat} (ck : CursorKind) (t : LexToken)
    (hk : k ≠ t.startOff) : lookupTM (processorToken m ck t) k = lookupTM m k := by
  unfold processorToken
  cases hl : lookupTM m t.startOff with
  | none =>
    dsimp only
    exact lookupTM_set_ne m t.startOff k _ hk
  | some old =>
    dsimp only
    by_cases hold : old.ckind = CursorKind.MACRO_INSTANTIATION
    · rw [if_pos hold]
    · rw [if_neg hold]
      exact lookupTM_set_ne m t.startOff k _ hk

theorem trailEmit_macro_stable (ck : CursorKind) : ∀ (toks : List LexToken) (off : Nat)
    (m : TokenMap) (k : Nat) (mt : MergedToken), lookupTM m k = some mt →
    mt.ckind = CursorKind.MACRO_INSTANTIATION →
    lookupTM (trailEmit ck toks off m) k = some mt := by
  intro toks
  induction toks with
  | nil => intro off m k mt h _; exact h
  | cons t rest ih =>
    intro off m k mt h hmac
    rw [trailEmit]
    by_cases hlt : t.startOff < off
    · rw [if_pos hlt]; exact ih off m k mt h hmac
    · rw [if_neg hlt]
      exact ih t.endOff _ k mt (processorToken_macro_stable ck t h hmac) hmac

theorem emitUntil_macro_stable (ck : CursorKind) (limit : Nat) : ∀ (toks : List LexToken)
    (off : Nat) (m : TokenMap) (k : Nat) (mt : MergedToken), lookupTM m k = some mt →
    mt.ckind = CursorKind.MACRO_INSTANTIATION →
    lookupTM (emitUntil ck limit toks off m).2.2 k = some mt := by
  intro toks
  induction toks with
  | nil => intro off m k mt h _; exact h
  | cons t rest ih =>
    intro off m k mt h hmac
    rw [emitUntil]
    by_cases hoff : off < limit
    · rw [if_pos hoff]
      by_cases hlt : t.startOff < off
      · rw [if_pos hlt]; exact ih off m k mt h hmac
      · rw [if_neg hlt]
        exact ih t.endOff _ k mt (processorToken_macro_stable ck t h hmac) hmac
    · rw [if_neg hoff]
      exact h

mutual

theorem processorVisit_macro_stable (c : Cursor) (m : TokenMap) (k : Nat) (mt : MergedToken)
    (h : lookupTM m k = some mt) (hmac : mt.ckind = CursorKind.MACRO_INSTANTIATION) :
    lookupTM (processorVisit c m) k = some mt := by
  obtain ⟨kind, startOff, endOff, inFile, toks, children⟩ := c
  rw [processorVisit]
  by_cases hf : inFile = true
  · rw [if_neg (by simp [hf])]
    exact trailEmit_macro_stable _ _ _ _ k mt
      (processorVisitChildren_macro_stable kind children startOff _ m k mt h hmac) hmac
  · rw [if_pos (by simp [hf])]
    exact h

theorem processorVisitChildren_macro_stable (ck : CursorKind) (cs : List Cursor) (off : Nat)
    (toks : List LexToken) (m : TokenMap) (k : Nat) (mt : MergedToken)
    (h : lookupTM m k = some mt) (hmac : mt.ckind = CursorKind.MACRO_INSTANTIATION) :
    lookupTM (processorVisitChildren ck cs off toks m).2.2 k = some mt := by
  match cs with
  | [] => exact h
  | ch :: rest =>
    rw [processorVisitChildren]
    exact processorVisitChildren_macro_stable ck rest ch.endOff _ _ k mt
      (processorVisit_macro_stable ch _ k mt
        (emitUntil_macro_stable ck ch.startOff toks off m k mt h hmac) hmac) hmac

end

/-- Claim C6: during the merge traversal a macro-instantiation cursor
contributes only its first lexical token — visiting such a cursor leaves
every map entry other than that token's start offset untouched — and once
an entry holds a token whose cursor is a macro instantiation, neither a
later `Processor.token` insertion nor any further `Processor.visit`
traversal ever replaces it. -/
theorem c6_macro_protection (c : Cursor) (m : TokenMap) (k : Nat) (mt : MergedToken)
    (ck : CursorKind) (t : LexToken) :
    (c.kind = CursorKind.MACRO_INSTANTIATION → c.inFile = true → c.children = [] →
      (∀ t0 ∈ c.toks.take 1, k ≠ t0.startOff) →
      lookupTM (processorVisit c m) k = lookupTM m k) ∧
    (lookupTM m k = some mt → mt.ckind = CursorKind.MACRO_INSTANTIATION →
      lookupTM (processorToken m ck t) k = some mt ∧
      lookupTM (processorVisit c m) k = some mt) := by
  constructor
  · obtain ⟨kind, startOff, endOff, inFile, toks, children⟩ := c
    intro hkind hin hch hk
    simp only at hkind hin hch hk
    subst hkind
    subst hch
    rw [processorVisit, if_neg (by simp [hin])]
    rw [processorVisitChildren]
    dsimp only
    rw [if_pos rfl]
    cases toks with
    | nil => rfl
    | cons t0 rest =>
      simp only [List.take_succ_cons, List.take_zero]
      rw [trailEmit]
      by_cases hlt : t0.startOff < startOff
      · rw [if_pos hlt]
        rfl
      · rw [if_neg hlt]
        rw [trailEmit]
        exact processorToken_frame CursorKind.MACRO_INSTANTIATION t0
          (hk t0 (by simp [List.take_succ_cons]))
  · intro h hmac
    exact ⟨processorToken_macro_stable ck t h hmac,
      processorVisit_macro_stable c m k mt h hmac⟩

theorem c6_macro_protection_witness :
    lookupTM (processorVisit
        ⟨CursorKind.MACRO_INSTANTIATION, 0, 5, true, [⟨0, 3⟩, ⟨3, 5⟩], []⟩
        [(9, ⟨⟨9, 10⟩, CursorKind.OTHER, none⟩)]) 9 =
      lookupTM [(9, ⟨⟨9, 10⟩, CursorKind.OTHER, none⟩)] 9 ∧
    lookupTM (processorToken [(4, ⟨⟨4, 5⟩, CursorKind.MACRO_INSTANTIATION, none⟩)]
        CursorKind.OTHER ⟨4, 6⟩) 4 = some ⟨⟨4, 5⟩, CursorKind.MACRO_INSTANTIATION, none⟩ :=
  ⟨(c6_macro_protection ⟨CursorKind.MACRO_INSTANTIATION, 0, 5, true, [⟨0, 3⟩, ⟨3, 5⟩], []⟩
      [(9, ⟨⟨9, 10⟩, CursorKind.OTHER, none⟩)] 9 ⟨⟨0, 1⟩, CursorKind.OTHER, none⟩
      CursorKind.OTHER ⟨0, 1⟩).1 rfl rfl rfl (by decide),
   ((c6_macro_protection ⟨CursorKind.OTHER, 0, 0, false, [], []⟩
      [(4, ⟨⟨4, 5⟩, CursorKind.MACRO_INSTANTIATION, none⟩)] 4
      ⟨⟨4, 5⟩, CursorKind.MACRO_INSTANTIATION, none⟩ CursorKind.OTHER ⟨4, 6⟩).2 (by decide) rfl).1⟩

theorem handleLoc_not_main {mainFile : String} {l : JLoc} {st : TState}
    (hst : st.isMainFile = false) (hf : ∀ f ∈ l.file.toList, f ≠ mainFile) :
    (handleLoc mainFile l st).isMainFile = false := by
  unfold handleLoc
  cases hlf : l.file with
  | none =>
    dsimp only
    cases l.line <;> simpa using hst
  | some f =>
    have hne : f ≠ mainFile := hf f (by simp [hlf])
    dsimp only
    cases l.line <;> simp [hne]

mutual

theorem mrTraverse_frame (mainFile : String) (n : JNode) (st : TState) (im : IdMap)
    (tm : TokenMap) (hst : st.isMainFile = false)
    (hf : ∀ f ∈ nodeFiles n, f ≠ mainFile) :
    (mrTraverse mainFile n st im tm).2.2 = tm ∧
      (mrTraverse mainFile n st im tm).1.isMainFile = false := by
  obtain ⟨kind, loc, rng, nid, mangledName, refMember, name, inner⟩ := n
  rw [mrTraverse.eq_def]
  simp only [nodeFiles] at hf
  rcases loc with _ | l
  · rcases rng with _ | r
    · dsimp only
      rw [if_neg (by rw [hst]; simp)]
      exact mrTraverseList_frame mainFile inner _ _ tm hst
        (fun f hmem => hf f (by simp [hmem]))
    · dsimp only
      have hst2 : (handleLoc mainFile r.1 st).isMainFile = false :=
        handleLoc_not_main hst (fun f hmem => hf f (by simp [hmem]))
      rw [if_neg (by rw [hst2]; simp)]
      exact mrTraverseList_frame mainFile inner _ _ tm hst2
        (fun f hmem => hf f (by simp [hmem]))
  · rcases rng with _ | r
    · dsimp only
      have hst1 : (handleLoc mainFile l st).isMainFile = false :=
        handleLoc_not_main hst (fun f hmem => hf f (by simp [hmem]))
      rw [if_neg (by rw [hst1]; simp)]
      exact mrTraverseList_frame mainFile inner _ _ tm hst1
        (fun f hmem => hf f (by simp [hmem]))
    · dsimp only
      have hst1 : (handleLoc mainFile l st).isMainFile = false :=
        handleLoc_not_main hst (fun f hmem => hf f (by simp [hmem]))
      have hst2 : (handleLoc mainFile r.1 (handleLoc mainFile l st)).isMainFile = false :=
        handleLoc_not_main hst1 (fun f hmem => hf f (by simp [hmem]))
      rw [if_neg (by rw [hst2]; simp)]
      exact mrTraverseList_frame mainFile inner _ _ tm hst2
        (fun f hmem => hf f (by simp [hmem]))

theorem mrTraverseList_frame (mainFile : String) (ns : List JNode) (st : TState)
    (im : IdMap) (tm : TokenMap) (hst : st.isMainFile = false)
    (hf : ∀ f ∈ nodeFilesList ns, f ≠ mainFile) :
    (mrTraverseList mainFile ns st im tm).2.2 = tm ∧
      (mrTraverseList mainFile ns st im tm).1.isMainFile = false := by
  match ns with
  | [] => exact ⟨rfl, hst⟩
  | n :: rest =>
    rw [mrTraverseList]
    have h1 := mrTraverse_frame mainFile n st im tm hst
      (fun f hmem => hf f (by simp [nodeFilesList, hmem]))
    have h2 := mrTraverseList_frame mainFile rest (mrTraverse mainFile n st im tm).1
      (mrTraverse mainFile n st im tm).2.1 (mrTraverse mainFile n st im tm).2.2 h1.2
      (fun f hmem => hf f (by simp [nodeFilesList, hmem]))
    exact ⟨h2.1.trans h1.1, h2.2⟩

end

/-- Claim C7: the member-reference traversal attempts resolution only for
member-expression nodes reached while the state says the current file is
the main file (a subtree that never mentions the main file leaves the
token map untouched); an attempt whose referenced identity is unknown or
whose end offset is not in the token map returns without modifying
anything and without error; and a successful attempt sets exactly the link
of the token at the end offset — built from the referenced declaration's
captured file and line, its own column and display name — leaving every
other entry and every other field unchanged. -/
theorem c7_member_resolution (mainFile : String) (n : JNode) (st : TState) (im : IdMap)
    (tm : TokenMap) :
    (st.isMainFile = false → (∀ f ∈ nodeFiles n, f ≠ mainFile) →
      (mrTraverse mainFile n st im tm).2.2 = tm) ∧
    (n.kind ≠ "MemberExpr" → mrVisit im tm n = tm) ∧
    (∀ member, n.kind = "MemberExpr" → n.referencedMemberDecl = some member →
      lookupIM im member = none → mrVisit im tm n = tm) ∧
    (∀ l0 endOff, n.kind = "MemberExpr" → n.rng = some (l0, endOff) →
      lookupTM tm endOff = none → mrVisit im tm n = tm) ∧
    (∀ l0 endOff member ref refSt mt, n.kind = "MemberExpr" → n.rng = some (l0, endOff) →
      n.referencedMemberDecl = some member → lookupIM im member = some (ref, refSt) →
      lookupTM tm endOff = some mt →
      lookupTM (mrVisit im tm n) endOff =
        some { mt with link := some (memberLink ref refSt) } ∧
      (∀ k, k ≠ endOff → lookupTM (mrVisit im tm n) k = lookupTM tm k)) := by
  refine ⟨?_, ?_, ?_, ?_, ?_⟩
  · intro hst hf
    exact (mrTraverse_frame mainFile n st im tm hst hf).1
  · intro hk
    rw [mrVisit, if_neg hk]
  · intro member hk hrm him
    rw [mrVisit, if_pos hk]
    cases hrng : n.rng with
    | none => rfl
    | some r =>
      obtain ⟨l0, endOff⟩ := r
      dsimp only
      rw [hrm]
      dsimp only
      rw [him]
  · intro l0 endOff hk hrng htm
    rw [mrVisit, if_pos hk, hrng]
    dsimp only
    cases hrm : n.referencedMemberDecl with
    | none => rfl
    | some member =>
      dsimp only
      cases him : lookupIM im member with
      | none => rfl
      | some v =>
        obtain ⟨ref, refSt⟩ := v
        dsimp only
        rw [htm]
  · intro l0 endOff member ref refSt mt hk hrng hrm him htm
    have hv : mrVisit im tm n = setTM tm endOff { mt with link := some (memberLink ref refSt) } := by
      rw [mrVisit, if_pos hk, hrng]
      dsimp only
      rw [hrm]
      dsimp only
      rw [him]
      dsimp only
      rw [htm]
    rw [hv]
    exact ⟨lookupTM_set_self tm endOff _, fun k hkne => lookupTM_set_ne tm endOff k _ hkne⟩

theorem c7_member_resolution_witness :
    lookupTM (mrVisit
      [(42, (⟨"CXXMethodDecl", none, some (⟨none, none, 3⟩, 0), some 42, some "mn",
          none, "test", []⟩, ⟨some "/other.h", 12, false⟩))]
      [(7, ⟨⟨5, 7⟩, CursorKind.OTHER, none⟩)]
      ⟨"MemberExpr", none, some (⟨none, none, 0⟩, 7), none, none, some 42, "", []⟩) 7 =
      some ⟨⟨5, 7⟩, CursorKind.OTHER, some ⟨"/other.h", 12, 3, "test"⟩⟩ := by
  have h := (c7_member_resolution "m.cpp"
      ⟨"MemberExpr", none, some (⟨none, none, 0⟩, 7), none, none, some 42, "", []⟩
      ⟨none, -1, false⟩
      [(42, (⟨"CXXMethodDecl", none, some (⟨none, none, 3⟩, 0), some 42, some "mn",
          none, "test", []⟩, ⟨some "/other.h", 12, false⟩))]
      [(7, ⟨⟨5, 7⟩, CursorKind.OTHER, none⟩)]).2.2.2.2
      ⟨none, none, 0⟩ 7 42
      ⟨"CXXMethodDecl", none, some (⟨none, none, 3⟩, 0), some 42, some "mn", none, "test", []⟩
      ⟨some "/other.h", 12, false⟩ ⟨⟨5, 7⟩, CursorKind.OTHER, none⟩ rfl rfl rfl rfl rfl
  exact h.1

/-- Claim C1: the overload matcher resolves a link by (1) exact `symbols`
lookup on the qualified name; (2) on a miss, and only when parameter types
are present, the first entry of the `overloads` bucket whose signature
equals the link's parameter-type list exactly; (3) for an inclusion link
(name `"<file>"`), the `headers` lookup by file path decides instead of
the first two steps; when nothing matches, the link is returned unchanged
with `cppref` still unset, and no error is possible.  On the spec's
example knowledge base, `["int"]` resolves to `"X"`, `["int","int"]` to
`"Y"`, and `["double"]` to nothing. -/
theorem c1_overload_matcher (m : StlMap) (link : Link) :
    (∀ p, link.name ≠ "<file>" → lookupA m.symbols link.qualified_name = some p →
      (resolveLink m link).cppref = some p) ∧
    (∀ ovs, link.name ≠ "<file>" → lookupA m.symbols link.qualified_name = none →
      link.parameter_types ≠ none → lookupA m.overloads link.qualified_name = some ovs →
      (resolveLink m link).cppref =
        (match ovs.filter (fun o => overload_match o.overload link) with
         | mfirst :: _ => some mfirst.page
         | [] => link.cppref)) ∧
    (link.name = "<file>" →
      (resolveLink m link).cppref =
        (match lookupA m.headers link.file with
         | some p => some p
         | none => link.cppref)) ∧
    (link.name ≠ "<file>" → lookupA m.symbols link.qualified_name = none →
      link.parameter_types = none → resolveLink m link = link) ∧
    ((resolveLink
        ⟨[], [("a::f", [⟨"X", ⟨"", 0, 0, "f", "a::f", some ["int"], none⟩⟩,
                        ⟨"Y", ⟨"", 0, 0, "f", "a::f", some ["int", "int"], none⟩⟩])], []⟩
        ⟨"", 0, 0, "f", "a::f", some ["int"], none⟩).cppref = some "X" ∧
      (resolveLink
        ⟨[], [("a::f", [⟨"X", ⟨"", 0, 0, "f", "a::f", some ["int"], none⟩⟩,
                        ⟨"Y", ⟨"", 0, 0, "f", "a::f", some ["int", "int"], none⟩⟩])], []⟩
        ⟨"", 0, 0, "f", "a::f", some ["int", "int"], none⟩).cppref = some "Y" ∧
      (resolveLink
        ⟨[], [("a::f", [⟨"X", ⟨"", 0, 0, "f", "a::f", some ["int"], none⟩⟩,
                        ⟨"Y", ⟨"", 0, 0, "f", "a::f", some ["int", "int"], none⟩⟩])], []⟩
        ⟨"", 0, 0, "f", "a::f", some ["double"], none⟩).cppref = none) := by
  refine ⟨?_, ?_, ?_, ?_, by decide⟩
  · intro p hname hsym
    unfold resolveLink
    dsimp only
    rw [hsym, if_neg hname]
  · intro ovs hname hsym hpt hov
    unfold resolveLink
    dsimp only
    rw [hsym, if_neg hname]
    cases hptv : link.parameter_types with
    | none => exact absurd hptv hpt
    | some ps =>
      dsimp only
      rw [hov]
      dsimp only
      cases ovs.filter (fun o => overload_match o.overload link) <;> dsimp only
  · intro hname
    unfold resolveLink
    dsimp only
    rw [if_pos hname]
    cases lookupA m.headers link.file <;> dsimp only
  · intro hname hsym hpt
    unfold resolveLink
    dsimp only
    rw [hsym, hpt, if_neg hname]

theorem c1_overload_matcher_witness :
    (resolveLink ⟨[("std::abs", "cpp/numeric/math/abs")], [], []⟩
      ⟨"", 0, 0, "abs", "std::abs", none, none⟩).cppref = some "cpp/numeric/math/abs" :=
  (c1_overload_matcher ⟨[("std::abs", "cpp/numeric/math/abs")], [], []⟩
    ⟨"", 0, 0, "abs", "std::abs", none, none⟩).1 "cpp/numeric/math/abs"
    (by decide) (by decide)

lemma genPhase_no_write (corpus : Corpus) :
    ∀ classes : List ClassElem, BuildEvent.writeCache ∉ (genPhase corpus classes).1 := by
  intro classes
  induction classes with
  | nil => simp [genPhase]
  | cons c rest ih =>
    cases hc : handle_class corpus c with
    | error e => simp [genPhase, hc]
    | ok r =>
      cases r with
      | none => simp [genPhase, hc]; exact ih
      | some p => simp [genPhase, hc]; exact ih

/-- **C8** (amended): every per-class or per-page failure that the build
guards against is recovered by skipping — an `/experimental/` class, a
missing class page, a missing header, a missing declaration table, a
non-class entity, and a missing overload page each make `handle_class`
(resp. its page loop `pagesInto`) return without effect and without
error; a probe marker whose following token yields no link is skipped by
`process_file` and only counted; and the declaration loop completes
without error whenever every stored declaration parses.  Unparsable
declarations themselves are NOT recovered: see the counterexample. -/
theorem c8_build_failure_policy (corpus : Corpus) (cls : ClassElem) :
    (isSub "/experimental/".toList cls.link = true →
      handle_class corpus cls = Except.ok none) ∧
    (isSub "/experimental/".toList cls.link = false →
      corpus.classPage cls.link = none →
      handle_class corpus cls = Except.ok none) ∧
    (∀ page, isSub "/experimental/".toList cls.link = false →
      corpus.classPage cls.link = some page → page.header = none →
      handle_class corpus cls = Except.ok none) ∧
    (∀ page, isSub "/experimental/".toList cls.link = false →
      corpus.classPage cls.link = some page → page.classDecl = none →
      handle_class corpus cls = Except.ok none) ∧
    (∀ page cd, isSub "/experimental/".toList cls.link = false →
      corpus.classPage cls.link = some page → page.classDecl = some cd →
      isSub "class".toList (stripC (normWs cd)) = false →
      isSub "struct".toList (stripC (normWs cd)) = false →
      handle_class corpus cls = Except.ok none) ∧
    (∀ page rest acc, corpus.overloadPage page = none →
      pagesInto corpus (page :: rest) acc = pagesInto corpus rest acc) ∧
    (∀ tplSet fns, (∀ d pf, (d, pf) ∈ fns → declParses d) →
      ∃ n, processDecls tplSet fns = Except.ok n) ∧
    process_file pfItemsEx = ([(some "cpp/bar".toList, pfLinkEx)], 1) := by
  refine ⟨?_, ?_, ?_, ?_, ?_, ?_, ?_, by decide⟩
  · intro h
    unfold handle_class
    rw [if_pos h]
  · intro h1 h2
    unfold handle_class
    rw [if_neg (by rw [h1]; exact Bool.false_ne_true), h2]
  · intro page h1 h2 h3
    unfold handle_class
    rw [if_neg (by rw [h1]; exact Bool.false_ne_true), h2]
    dsimp only
    rw [h3]
  · intro page h1 h2 h3
    unfold handle_class
    rw [if_neg (by rw [h1]; exact Bool.false_ne_true), h2]
    dsimp only
    cases hh : page.header with
    | none => rfl
    | some x =>
      dsimp only
      rw [h3]
  · intro page cd h1 h2 h3 h4 h5
    unfold handle_class
    rw [if_neg (by rw [h1]; exact Bool.false_ne_true), h2]
    dsimp only
    cases hh : page.header with
    | none => rfl
    | some x =>
      dsimp only
      rw [h3]
      dsimp only
      rw [if_pos (by rw [h4, h5]; rfl)]
  · intro page rest acc h
    simp [pagesInto, h]
  · intro tplSet fns h
    induction fns with
    | nil => exact ⟨0, rfl⟩
    | cons hd tl ih =>
      obtain ⟨decl, pf⟩ := hd
      have hd1 : declParses decl := h decl pf (List.mem_cons_self _ _)
      have htl : ∀ d p2, (d, p2) ∈ tl → declParses d :=
        fun d p2 hm => h d p2 (List.mem_cons_of_mem _ hm)
      obtain ⟨n, hn⟩ := ih htl
      cases hdel : isSub "= delete".toList decl with
      | true =>
        refine ⟨n, ?_⟩
        simp only [processDecls]
        rw [if_pos hdel]
        exact hn
      | false =>
        cases hpar : isSub "(".toList decl with
        | false =>
          refine ⟨n, ?_⟩
          simp only [processDecls]
          rw [if_neg (by rw [hdel]; exact Bool.false_ne_true),
            if_pos (by rw [hpar]; rfl)]
          exact hn
        | true =>
          cases hgtp : get_template_params decl with
          | error e =>
            exfalso
            have hx := hd1.1
            rw [hgtp] at hx
            exact absurd hx (by simp [Except.isOk, Except.toBool])
          | ok tps =>
            cases hsm : signature_match decl with
            | none =>
              refine ⟨n + 1, ?_⟩
              simp only [processDecls]
              rw [if_neg (by rw [hdel]; exact Bool.false_ne_true),
                if_neg (by rw [hpar]; exact Bool.false_ne_true)]
              rw [hgtp]
              dsimp only
              rw [hsm]
              dsimp only
              rw [hn]
              rfl
            | some pr =>
              obtain ⟨nm, rest2⟩ := pr
              have hssr := hd1.2 nm rest2 hsm
              cases hs2 : signature_split_rest rest2 with
              | error e =>
                exfalso
                rw [hs2] at hssr
                exact absurd hssr (by simp [Except.isOk, Except.toBool])
              | ok pr2 =>
                refine ⟨n + 1, ?_⟩
                simp only [processDecls]
                rw [if_neg (by rw [hdel]; exact Bool.false_ne_true),
                  if_neg (by rw [hpar]; exact Bool.false_ne_true)]
                rw [hgtp]
                dsimp only
                rw [hsm]
                dsimp only
                rw [hs2]
                dsimp only
                rw [hn]
                rfl

/-- **C8** witness: the experimental-class skip at a concrete class. -/
theorem c8_build_failure_policy_witness :
    handle_class corpusTrivial clsExp = Except.ok none :=
  (c8_build_failure_policy corpusTrivial clsExp).1 (by decide)

/-- **C8** counterexample: a corpus whose overload page contains the
truncated declaration `void f(int a` makes `handle_class` raise the
`signature_split_rest` assertion (`assert level == 0`) out of the build
instead of skipping the declaration, refuting "no such condition raises
an exception out of the build for any input documentation corpus". -/
theorem c8_build_failure_policy_cex :
    handle_class corpusCex clsCex = Except.error "assert level == 0" := by
  rfl

/-- **C9**: on `workTrace`, the cache write is absent whenever a class
raised out of the generation phase, and otherwise occurs exactly once,
as the very last event, after every probe-processing event; and
`resolveTrace` contains the build step iff the cache file is absent,
always ending with the read-only cache load. -/
theorem c9_cache_discipline (archiveExists extractedExists : Bool) (corpus : Corpus)
    (classes : List ClassElem) (cacheExists : Bool) :
    ((genPhase corpus classes).2 = none →
      BuildEvent.writeCache ∉ workTrace archiveExists extractedExists corpus classes) ∧
    (∀ files, (genPhase corpus classes).2 = some files →
      ∃ pre, workTrace archiveExists extractedExists corpus classes =
          pre ++ [BuildEvent.writeCache] ∧
        BuildEvent.writeCache ∉ pre ∧
        ∀ f ∈ files, BuildEvent.processProbe f ∈ pre) ∧
    (ResolveEvent.buildKB ∈ resolveTrace cacheExists ↔ cacheExists = false) ∧
    (resolveTrace cacheExists).getLast? = some ResolveEvent.loadCache := by
  refine ⟨?_, ?_, ?_, ?_⟩
  · intro h
    have hg := genPhase_no_write corpus classes
    cases archiveExists <;> cases extractedExists <;>
      simp [workTrace, h, hg]
  · intro files h
    have hg := genPhase_no_write corpus classes
    refine ⟨(if archiveExists then [] else [BuildEvent.download]) ++
      (if extractedExists then [] else [BuildEvent.extract]) ++
      [BuildEvent.mapHeaders, BuildEvent.parseIndex] ++
      (genPhase corpus classes).1 ++ files.map BuildEvent.processProbe ++
      [BuildEvent.reportFailures], ?_, ?_, ?_⟩
    · simp [workTrace, h]
    · cases archiveExists <;> cases extractedExists <;>
        simp [hg, List.mem_map]
    · intro f hf
      simp [List.mem_map, hf]
  · cases cacheExists <;> simp [resolveTrace]
  · cases cacheExists <;> simp [resolveTrace]

/-- **C9** witness: a completed build over no classes writes the cache
exactly once, at the end. -/
theorem c9_cache_discipline_witness :
    ∃ pre, workTrace true true corpusTrivial [] =
        pre ++ [BuildEvent.writeCache] ∧
      BuildEvent.writeCache ∉ pre ∧
      ∀ f ∈ ([] : List (List Char)), BuildEvent.processProbe f ∈ pre :=
  (c9_cache_discipline true true corpusTrivial [] true).2.1 [] (by rfl)
